import Mathlib

/-!
# apg-go: the random generation engine (`random.go`)

A shallow embedding of `random.go`.  The entropy source (`crypto/rand`) is an
injected stream of replies that the functions consume in request order; every
function returns, next to its Go results, the position of the next unread
reply, so that "reads nothing from the entropy source" is "the position is
unchanged".  Loops that Go leaves unbounded take a step budget and return
`none` when the budget runs out before the loop exits.
-/

namespace Apg

/-! ## Data model -/

/-- A Go `string` / `[]byte`: the sequence of its bytes.  Each element stands
for one byte, written as a character (the package's tables are ASCII, where a
byte and a character coincide). -/
abbrev GoString := List Char

/-- Go `error` values that `random.go` creates or passes on. -/
inductive Error where
  | ErrInvalidLength : Error
  | ErrLengthMismatch : Error
  | ErrInvalidCharRange : Error
  /-- The error that a failed read of `crypto/rand` returns. -/
  | entropy : Error
  /-- Go `fmt.Errorf(msg)`. -/
  | errorf : String → Error
  /-- Go `fmt.Errorf(msg + ": %w", err)`. -/
  | wrap : String → Error → Error
  deriving DecidableEq, Repr

/-- One reply of the entropy source to one request (`rand.Read` or `rand.Int`):
the request fails, or it delivers random data, carried as a natural number. -/
inductive Reply where
  | fail : Reply
  | data : Nat → Reply
  deriving DecidableEq, Repr

/-- The entropy source: its replies, indexed by the number of requests made
before. -/
abbrev Entropy := Nat → Reply

/-- Modelled from the spec: type `Algorithm` of the configuration, which is not
in `random.go`; the spec gives `enum {Random, CoinFlip, Pronounceable,
Unsupported}` and `config_test.go` the four constant names. -/
inductive Algorithm where
  | AlgoPronounceable : Algorithm
  | AlgoRandom : Algorithm
  | AlgoCoinFlip : Algorithm
  | AlgoUnsupported : Algorithm
  deriving DecidableEq, Repr

/-- Modelled from the spec: the `Mode` constants of the package, which are not
in `random.go`: the four character classes and the human-readable toggle. -/
inductive Mode where
  | ModeNumeric : Mode
  | ModeLowerCase : Mode
  | ModeUpperCase : Mode
  | ModeSpecial : Mode
  | ModeHumanReadable : Mode
  deriving DecidableEq, Repr

/-- A mask of modes (`g.config.Mode`). -/
abbrev ModeMask := Nat

/-- Modelled from the spec: the declarations that `random.go` uses and that
live elsewhere in the package: the mask test `MaskHasMode` and the eight
character tables (four classes, each in a full and a human-readable variant).
They are parameters of the embedding. -/
structure Decls where
  MaskHasMode : ModeMask → Mode → Bool
  CharRangeAlphaLower : GoString
  CharRangeAlphaLowerHuman : GoString
  CharRangeNumeric : GoString
  CharRangeNumericHuman : GoString
  CharRangeSpecial : GoString
  CharRangeSpecialHuman : GoString
  CharRangeAlphaUpper : GoString
  CharRangeAlphaUpperHuman : GoString

/-- Modelled from the spec: the fields of the configuration (`g.config`) that
`random.go` reads, plus `ExcludeChars`; the integer fields are Go `int64`. -/
structure Config where
  Algorithm : Algorithm
  FixedLength : Int
  MinLength : Int
  MaxLength : Int
  Mode : ModeMask
  MinLowerCase : Int
  MinNumeric : Int
  MinSpecial : Int
  MinUpperCase : Int
  ExcludeChars : GoString
  deriving DecidableEq, Repr

/-- The values of Go's `int64`. -/
def isInt64 (x : Int) : Prop := -(2 ^ 63) ≤ x ∧ x < 2 ^ 63

instance (x : Int) : Decidable (isInt64 x) := by
  unfold isInt64; infer_instance

/-- Two's-complement wrap-around of `int64` arithmetic. -/
def wrap64 (x : Int) : Int := (x + 2 ^ 63) % 2 ^ 64 - 2 ^ 63

/-! ## Constants of `random.go` -/

/-- Go `letterIdxBits`: 7 bits to represent a letter index. -/
def letterIdxBits : Nat := 7

/-- Go `letterIdxMask = 1<<letterIdxBits - 1`: all 1-bits, as many as `letterIdxBits`. -/
def letterIdxMask : Nat := 1 <<< letterIdxBits - 1

/-- Go `letterIdxMax = 63 / letterIdxBits`: the number of letter indices fitting in 63 bits. -/
def letterIdxMax : Nat := 63 / letterIdxBits

/-- Go `maxInt32` -/
def maxInt32 : Int := 2147483647

/-! ## The entropy source (`crypto/rand`) -/

/-- Library `rand.Read(randPool)` on a pool of 8 bytes: consumes one reply; on
data the pool holds the 8 bytes of the delivered number, most significant
first. -/
def randRead8 (e : Entropy) (pos : Nat) : Option (List Nat) × Nat :=
  match e pos with
  | Reply.fail => (none, pos + 1)
  | Reply.data n => (some ((List.range 8).map (fun k => n / 256 ^ (7 - k) % 256)), pos + 1)

/-- Library `binary.BigEndian.Uint64`. -/
def bigEndianUint64 (b : List Nat) : Nat :=
  b.foldl (fun acc x => acc * 256 + x) 0

/-- Library `rand.Int(rand.Reader, max)` for `max > 0`, by its contract: it
consumes one reply and returns a value in `[0, max)`, or the error of the
failed read. -/
def randInt (e : Entropy) (pos : Nat) (max : Int) : Except Error Int × Nat :=
  match e pos with
  | Reply.fail => (Except.error Error.entropy, pos + 1)
  | Reply.data n => (Except.ok ((n : Int) % max), pos + 1)

/-! ## `random.go` -/

/-- Go `RandNum` -/
def RandNum (e : Entropy) (pos : Nat) (max : Int) : (Int × Option Error) × Nat :=
  if max < 1 then ((0, some Error.ErrInvalidLength), pos)
  else
    match randInt e pos max with
    | (Except.error err, pos1) =>
      ((0, some (Error.wrap "random number generation failed" err)), pos1)
    | (Except.ok randNum, pos1) => ((randNum, none), pos1)

/-- Go `CoinFlip` -/
def CoinFlip (e : Entropy) (pos : Nat) : Int × Nat :=
  ((RandNum e pos 2).1.1, (RandNum e pos 2).2)

/-- Go `CoinFlipBool` -/
def CoinFlipBool (e : Entropy) (pos : Nat) : Bool × Nat :=
  (decide ((CoinFlip e pos).1 = 1), (CoinFlip e pos).2)

/-- Go `GetPasswordLength` -/
def GetPasswordLength (cfg : Config) (e : Entropy) (pos : Nat) : (Int × Option Error) × Nat :=
  if cfg.FixedLength > 0 then ((cfg.FixedLength, none), pos)
  else
    let minLength := cfg.MinLength
    let maxLength := if minLength > cfg.MaxLength then minLength else cfg.MaxLength
    let diff := wrap64 (wrap64 (maxLength - minLength) + 1)
    match RandNum e pos diff with
    | ((_, some err), pos1) => ((0, some err), pos1)
    | ((randNum, none), pos1) =>
      let length := wrap64 (minLength + randNum)
      if length ≤ 0 then ((1, none), pos1) else ((length, none), pos1)

/-- The head of the loop body of `RandomStringFromCharRange`: when `rest == 0`
the pool is read anew and `char, rest` restart from it; the result is the error
of the read or the pair `(char, rest)` the iteration goes on with. -/
def refill (e : Entropy) (pos : Nat) (char rest : Nat) : Except Error (Nat × Nat) × Nat :=
  if rest = 0 then
    match randRead8 e pos with
    | (none, pos1) => (Except.error Error.entropy, pos1)
    | (some randPool, pos1) => (Except.ok (bigEndianUint64 randPool, letterIdxMax), pos1)
  else (Except.ok (char, rest), pos)

/-- The loop of `RandomStringFromCharRange`, one iteration per unit of `fuel`:
`idx`, `char`, `rest` are the loop variables and `randString` is the content of
the string builder (`rest` is at least 1 when it is decremented).  The result
is `none` when the budget runs out before the loop exits. -/
def sampleLoop (e : Entropy) (charRange : GoString) :
    Nat → Nat → Int → Nat → Nat → GoString → Option ((GoString × Option Error) × Nat)
  | 0, _, _, _, _, _ => none
  | fuel + 1, pos, idx, char, rest, randString =>
    if idx < 0 then some ((randString, none), pos)
    else
      match refill e pos char rest with
      | (Except.error err, pos1) => some ((randString, some err), pos1)
      | (Except.ok (char1, rest1), pos1) =>
        if h : char1 &&& letterIdxMask < charRange.length then
          sampleLoop e charRange fuel pos1 (idx - 1) (char1 >>> letterIdxBits) (rest1 - 1)
            (randString ++ [charRange[char1 &&& letterIdxMask]])
        else
          sampleLoop e charRange fuel pos1 idx (char1 >>> letterIdxBits) (rest1 - 1) randString

/-- Go `RandomStringFromCharRange` (the `Grow` of the builder only reserves
memory). -/
def RandomStringFromCharRange (e : Entropy) (fuel : Nat) (pos : Nat) (length : Int)
    (charRange : GoString) : Option ((GoString × Option Error) × Nat) :=
  if length < 1 then some (([], some Error.ErrInvalidLength), pos)
  else if charRange.length < 1 then some (([], some Error.ErrInvalidCharRange), pos)
  else
    match randRead8 e pos with
    | (none, pos1) => some (([], some Error.entropy), pos1)
    | (some randPool, pos1) =>
      sampleLoop e charRange fuel pos1 (length - 1) (bigEndianUint64 randPool) letterIdxMax []

/-- Go `GetCharRangeFromConfig` -/
def GetCharRangeFromConfig (d : Decls) (cfg : Config) : GoString :=
  let charRange : GoString := []
  let charRange :=
    if d.MaskHasMode cfg.Mode Mode.ModeLowerCase then
      (if d.MaskHasMode cfg.Mode Mode.ModeHumanReadable then charRange ++ d.CharRangeAlphaLowerHuman
        else charRange ++ d.CharRangeAlphaLower)
    else charRange
  let charRange :=
    if d.MaskHasMode cfg.Mode Mode.ModeNumeric then
      (if d.MaskHasMode cfg.Mode Mode.ModeHumanReadable then charRange ++ d.CharRangeNumericHuman
        else charRange ++ d.CharRangeNumeric)
    else charRange
  let charRange :=
    if d.MaskHasMode cfg.Mode Mode.ModeSpecial then
      (if d.MaskHasMode cfg.Mode Mode.ModeHumanReadable then charRange ++ d.CharRangeSpecialHuman
        else charRange ++ d.CharRangeSpecial)
    else charRange
  let charRange :=
    if d.MaskHasMode cfg.Mode Mode.ModeUpperCase then
      (if d.MaskHasMode cfg.Mode Mode.ModeHumanReadable then charRange ++ d.CharRangeAlphaUpperHuman
        else charRange ++ d.CharRangeAlphaUpper)
    else charRange
  charRange

/-- The counting loop of `checkMinimumRequirements`:
`for _, char := range charRange { count += strings.Count(password, string(char)) }`. -/
def countRange (charRange password : GoString) : Int :=
  charRange.foldl (fun count char => count + (password.count char : Int)) 0

/-- Go `checkMinimumRequirements` -/
def checkMinimumRequirements (d : Decls) (cfg : Config) (password : GoString) : Bool :=
  let ok := true
  let ok :=
    if cfg.MinLowerCase > 0 then
      let charRange :=
        if d.MaskHasMode cfg.Mode Mode.ModeHumanReadable then d.CharRangeAlphaLowerHuman
        else d.CharRangeAlphaLower
      if countRange charRange password < cfg.MinLowerCase then false else ok
    else ok
  let ok :=
    if cfg.MinNumeric > 0 then
      let charRange :=
        if d.MaskHasMode cfg.Mode Mode.ModeHumanReadable then d.CharRangeNumericHuman
        else d.CharRangeNumeric
      if countRange charRange password < cfg.MinNumeric then false else ok
    else ok
  let ok :=
    if cfg.MinSpecial > 0 then
      let charRange :=
        if d.MaskHasMode cfg.Mode Mode.ModeHumanReadable then d.CharRangeSpecialHuman
        else d.CharRangeSpecial
      if countRange charRange password < cfg.MinSpecial then false else ok
    else ok
  let ok :=
    if cfg.MinUpperCase > 0 then
      let charRange :=
        if d.MaskHasMode cfg.Mode Mode.ModeHumanReadable then d.CharRangeAlphaUpperHuman
        else d.CharRangeAlphaUpper
      if countRange charRange password < cfg.MinUpperCase then false else ok
    else ok
  ok

/-- Go `generateCoinFlip` -/
def generateCoinFlip (e : Entropy) (pos : Nat) : (GoString × Option Error) × Nat :=
  if (CoinFlipBool e pos).1 then ((['H', 'e', 'a', 'd', 's'], none), (CoinFlipBool e pos).2)
  else ((['T', 'a', 'i', 'l', 's'], none), (CoinFlipBool e pos).2)

/-- The rejection loop of `generateRandom` (`for !ok`), one iteration per unit
of the first argument; each call of `RandomStringFromCharRange` gets the budget
`fuel`.  The result is `none` when a budget runs out before the loop exits. -/
def generateRandomLoop (d : Decls) (cfg : Config) (e : Entropy) (fuel : Nat) (length : Int)
    (charRange : GoString) : Nat → Nat → Option ((GoString × Option Error) × Nat)
  | 0, _ => none
  | n + 1, pos =>
    match RandomStringFromCharRange e fuel pos length charRange with
    | none => none
    | some ((_, some err), pos1) => some (([], some err), pos1)
    | some ((password, none), pos1) =>
      if checkMinimumRequirements d cfg password then some ((password, none), pos1)
      else generateRandomLoop d cfg e fuel length charRange n pos1

/-- Go `generateRandom` -/
def generateRandom (d : Decls) (cfg : Config) (e : Entropy) (fuel : Nat) (pos : Nat) :
    Option ((GoString × Option Error) × Nat) :=
  match GetPasswordLength cfg e pos with
  | ((_, some err), pos1) =>
    some (([], some (Error.wrap "failed to calculate password length" err)), pos1)
  | ((length, none), pos1) =>
    generateRandomLoop d cfg e fuel length (GetCharRangeFromConfig d cfg) fuel pos1

/-- Go `Generate` -/
def Generate (d : Decls) (cfg : Config) (e : Entropy) (fuel : Nat) (pos : Nat) :
    Option ((GoString × Option Error) × Nat) :=
  match cfg.Algorithm with
  | Algorithm.AlgoCoinFlip => some (generateCoinFlip e pos)
  | Algorithm.AlgoRandom => generateRandom d cfg e fuel pos
  | Algorithm.AlgoUnsupported => some (([], some (Error.errorf "unsupported algorithm")), pos)
  | _ => some (([], none), pos)

/-! ## The declarations outside `random.go`, as the spec gives them -/

/-- Modelled from the spec: the bit of a mode in a mask ("bitmask of enabled
character classes plus a human-readable toggle"); the constants are declared
outside `random.go`, one bit each. -/
def Mode.bit : Mode → Nat
  | Mode.ModeNumeric => 1
  | Mode.ModeLowerCase => 2
  | Mode.ModeUpperCase => 4
  | Mode.ModeSpecial => 8
  | Mode.ModeHumanReadable => 16

/-- Modelled from the spec: `MaskHasMode` and the eight character tables, which
are declared outside `random.go`.  The mask test is a bit test; the tables are
the characters that the spec (section 8) and `TestGetCharRange` list for each
class: the human-readable variants drop `i l o`, `I L O`, `0 1` and the
ambiguous punctuation. -/
def apgDecls : Decls where
  MaskHasMode := fun ma mo => decide (ma &&& mo.bit ≠ 0)
  CharRangeAlphaLower := "abcdefghijklmnopqrstuvwxyz".toList
  CharRangeAlphaLowerHuman := "abcdefghjkmnpqrstuvwxyz".toList
  CharRangeNumeric := "0123456789".toList
  CharRangeNumericHuman := "23456789".toList
  CharRangeSpecial := "!\x22#$%&\x27()*+,-./:;<=>?@[\\]^_\x60\x7b|\x7d~".toList
  CharRangeSpecialHuman := "\x22#%*+-/:;=\\_|~".toList
  CharRangeAlphaUpper := "ABCDEFGHIJKLMNOPQRSTUVWXYZ".toList
  CharRangeAlphaUpperHuman := "ABCDEFGHJKMNPQRSTUVWXYZ".toList

/-- No reply of the source at a position in `[pos, pos')` is a failure. -/
def noFailure (e : Entropy) (pos pos' : Nat) : Prop :=
  ∀ p, pos ≤ p → p < pos' → e p ≠ Reply.fail

/-- The table of a class as the spec words it: "the human-readable variant if
`humanReadable` is set, else the full variant". -/
def classTable (d : Decls) (humanReadable : Bool) : Mode → GoString
  | Mode.ModeLowerCase =>
    if humanReadable then d.CharRangeAlphaLowerHuman else d.CharRangeAlphaLower
  | Mode.ModeNumeric =>
    if humanReadable then d.CharRangeNumericHuman else d.CharRangeNumeric
  | Mode.ModeSpecial =>
    if humanReadable then d.CharRangeSpecialHuman else d.CharRangeSpecial
  | Mode.ModeUpperCase =>
    if humanReadable then d.CharRangeAlphaUpperHuman else d.CharRangeAlphaUpper
  | Mode.ModeHumanReadable => []

/-- What a class contributes to the compiled range, as the spec words it: its
table "if the class bit is set", nothing otherwise. -/
def classPart (d : Decls) (mask : ModeMask) (m : Mode) : GoString :=
  if d.MaskHasMode mask m then classTable d (d.MaskHasMode mask Mode.ModeHumanReadable) m
  else []

/-- The compiled range as the spec words it (section 4.3): the contributions of
the four classes "in fixed order LowerCase, Numeric, Special, UpperCase". -/
def specCharRange (d : Decls) (mask : ModeMask) : GoString :=
  classPart d mask Mode.ModeLowerCase ++ classPart d mask Mode.ModeNumeric
    ++ classPart d mask Mode.ModeSpecial ++ classPart d mask Mode.ModeUpperCase

/-! ## Example inputs -/

/-- The policy of the spec's end-to-end example: fixed length 5, mask
`{LowerCase, Numeric}`, minima LowerCase 3 and Numeric 2. -/
def examplePolicy : Config where
  Algorithm := Algorithm.AlgoRandom
  FixedLength := 5
  MinLength := 12
  MaxLength := 20
  Mode := 3
  MinLowerCase := 3
  MinNumeric := 2
  MinSpecial := 0
  MinUpperCase := 0
  ExcludeChars := []

/-- An entropy stream for the examples: the reply to request `n` is the word
`n * 1234567891234567 + 12345`. -/
def exampleEntropy : Entropy := fun n => Reply.data (n * 1234567891234567 + 12345)

/-- A policy that selects the coin flip. -/
def coinPolicy : Config := { examplePolicy with Algorithm := Algorithm.AlgoCoinFlip }

/-- A policy that selects the unsupported algorithm. -/
def unsupportedPolicy : Config := { examplePolicy with Algorithm := Algorithm.AlgoUnsupported }

/-- A policy that selects the pronounceable algorithm. -/
def pronounceablePolicy : Config :=
  { examplePolicy with Algorithm := Algorithm.AlgoPronounceable }

/-- A policy that draws its length: `minLength = 8`, `maxLength = 12`, no fixed
length. -/
def rangePolicy : Config := { examplePolicy with FixedLength := 0, MinLength := 8, MaxLength := 12 }

/-- An entropy source whose every read fails. -/
def failingEntropy : Entropy := fun _ => Reply.fail

/-! ## Counting, candidates and the reference sampler -/

/-- The number of occurrences in `password` of characters of `table`, as the
spec words it ("character-by-character membership count"). -/
def occurrences (table password : GoString) : Int :=
  ((password.filter (fun c => decide (c ∈ table))).length : Int)

/-- The sum of the configured class minima that are positive. -/
def sumMinima (cfg : Config) : Int :=
  max cfg.MinLowerCase 0 + max cfg.MinNumeric 0 + max cfg.MinSpecial 0 + max cfg.MinUpperCase 0

/-- The four class tables of a variant are duplicate-free and pairwise
disjoint: their concatenation has no duplicate. -/
def tablesDisjoint (d : Decls) (humanReadable : Bool) : Prop :=
  (classTable d humanReadable Mode.ModeLowerCase ++ classTable d humanReadable Mode.ModeNumeric
    ++ classTable d humanReadable Mode.ModeSpecial
    ++ classTable d humanReadable Mode.ModeUpperCase).Nodup

instance (d : Decls) (humanReadable : Bool) : Decidable (tablesDisjoint d humanReadable) := by
  unfold tablesDisjoint; infer_instance

/-- The nine candidate indices of a 64-bit window `w`, as the spec words them:
the 7-bit groups `(w >> 7j) & 127` for `j = 0, 1, ..., 8`. -/
def candidates (w : Nat) : List Nat :=
  (List.range letterIdxMax).map (fun j => (w >>> (letterIdxBits * j)) &&& letterIdxMask)

/-- The next `n` candidate indices that the loop extracts from `char`: the low
bits under the mask, then those of `char >> letterIdxBits`, and so on. -/
def groups : Nat → Nat → List Nat
  | 0, _ => []
  | n + 1, char => (char &&& letterIdxMask) :: groups n (char >>> letterIdxBits)

/-- The 64-bit word that a read at position `p` puts into the window: the pool
of the read, interpreted big-endian. -/
def wordAt (e : Entropy) (p : Nat) : Nat :=
  match (randRead8 e p).1 with
  | some randPool => bigEndianUint64 randPool
  | none => 0

/-- The words of `k` consecutive reads from position `pos` on. -/
def wordsRead (e : Entropy) : Nat → Nat → List Nat
  | _, 0 => []
  | pos, k + 1 => wordAt e pos :: wordsRead e (pos + 1) k

/-- The characters for the first `L` candidate indices below the length of
`charRange` in a sequence of candidates; larger candidates are skipped. -/
def pick (charRange : GoString) (L : Nat) (cs : List Nat) : GoString :=
  ((cs.filter (fun i => decide (i < charRange.length))).take L).filterMap
    (fun i => charRange[i]?)

/-- The reference definition of the sampler over the words read. -/
def referenceSample (charRange : GoString) (L : Nat) (words : List Nat) : GoString :=
  pick charRange L (words.map candidates).flatten

/-- The candidate indices that are positions of `charRange`. -/
def accepted (charRange : GoString) (cs : List Nat) : List Nat :=
  cs.filter (fun i => decide (i < charRange.length))

/-! ## Further example inputs -/

/-- A policy with a numeric minimum but only the lower-case class enabled:
fixed length 5, mask `{LowerCase}`, minimum Numeric 1. -/
def lowerOnlyPolicy : Config :=
  { examplePolicy with Mode := 2, MinLowerCase := 0, MinNumeric := 1 }

/-- A policy with non-positive bounds in the wrong order: no fixed length,
`minLength = -5`, `maxLength = -9`. -/
def degeneratePolicy : Config :=
  { examplePolicy with FixedLength := 0, MinLength := -5, MaxLength := -9 }

/-- A range of 128 bytes. -/
def wideRange : GoString := List.replicate 128 'a'

/-- A stream that delivers the same word on every read. -/
def constantEntropy : Entropy := fun _ => Reply.data 0x0102030405060708

/-- The example policy without minima. -/
def noMinimaPolicy : Config := { examplePolicy with MinLowerCase := 0, MinNumeric := 0 }

/-- The example policy with fixed length 4, below its minima 3 + 2. -/
def unsatisfiablePolicy : Config := { examplePolicy with FixedLength := 4 }

/-- The example policy with no class bit: only the human-readable bit. -/
def emptyMaskPolicy : Config := { examplePolicy with Mode := 16 }

/-- The example policy with the numeric and the human-readable bit, without
minima. -/
def numericHumanPolicy : Config := { noMinimaPolicy with Mode := 17 }

/-- A range of 129 bytes: 128 times `a`, then `Z` at position 128. -/
def longRange : GoString := List.replicate 128 'a' ++ ['Z']

/-! ## The sampler: `RandomStringFromCharRange` -/

/-- A run of the sampling loop that ends without error has appended exactly
`idx + 1` bytes to the builder, each one a byte of `charRange`. -/
theorem sampleLoop_ok (e : Entropy) (charRange : GoString) :
    ∀ (fuel pos : Nat) (idx : Int) (char rest : Nat) (acc s : GoString) (pos' : Nat),
      -1 ≤ idx →
      sampleLoop e charRange fuel pos idx char rest acc = some ((s, none), pos') →
      (s.length : Int) = acc.length + (idx + 1) ∧ ∀ b ∈ s, b ∈ acc ∨ b ∈ charRange := by
  intro fuel
  induction fuel with
  | zero =>
    intro pos idx char rest acc s pos' _ h
    simp [sampleLoop] at h
  | succ n ih =>
    intro pos idx char rest acc s pos' hidx h
    rw [sampleLoop] at h
    split at h
    · simp only [Option.some.injEq, Prod.mk.injEq, and_true] at h
      obtain ⟨rfl, -⟩ := h
      refine ⟨by omega, fun b hb => Or.inl hb⟩
    · split at h
      · simp at h
      · split at h
        · have := ih _ _ _ _ _ _ _ (by omega) h
          obtain ⟨hl, hm⟩ := this
          refine ⟨?_, ?_⟩
          · simp only [List.length_append, List.length_singleton] at hl
            push_cast at hl
            omega
          · intro b hb
            rcases hm b hb with h1 | h1
            · rcases List.mem_append.1 h1 with h2 | h2
              · exact Or.inl h2
              · rw [List.mem_singleton] at h2
                subst h2
                exact Or.inr (List.getElem_mem _)
            · exact Or.inr h1
        · exact ih _ _ _ _ _ _ _ hidx h

/-- The only error the sampling loop returns is the error of a failed read. -/
theorem sampleLoop_error (e : Entropy) (charRange : GoString) :
    ∀ (fuel pos : Nat) (idx : Int) (char rest : Nat) (acc s : GoString) (err : Error)
      (pos' : Nat),
      sampleLoop e charRange fuel pos idx char rest acc = some ((s, some err), pos') →
      err = Error.entropy := by
  intro fuel
  induction fuel with
  | zero =>
    intro pos idx char rest acc s err pos' h
    simp [sampleLoop] at h
  | succ n ih =>
    intro pos idx char rest acc s err pos' h
    rw [sampleLoop] at h
    split at h
    · simp at h
    · split at h
      · rename_i err1 pos1 hre
        simp only [Option.some.injEq, Prod.mk.injEq] at h
        obtain ⟨⟨-, rfl⟩, -⟩ := h
        unfold refill at hre
        split at hre
        · split at hre
          · simp only [Prod.mk.injEq, Except.error.injEq] at hre
            exact hre.1.symm
          · simp at hre
        · simp at hre
      · split at h
        · exact ih _ _ _ _ _ _ _ _ h
        · exact ih _ _ _ _ _ _ _ _ h

/-- C1: for every length `L >= 1`, every non-empty `charRange` and every entropy
stream, whenever `RandomStringFromCharRange(L, charRange)` returns without
error, the returned string has exactly `L` bytes and every byte of it is a
byte of `charRange`. -/
theorem RandomStringFromCharRange_length_and_members (e : Entropy) (fuel pos : Nat)
    (length : Int) (charRange s : GoString) (pos' : Nat)
    (hlen : 1 ≤ length) (hrange : charRange ≠ [])
    (h : RandomStringFromCharRange e fuel pos length charRange = some ((s, none), pos')) :
    (s.length : Int) = length ∧ ∀ b ∈ s, b ∈ charRange := by
  unfold RandomStringFromCharRange at h
  have h1 : ¬ length < 1 := by omega
  have h2 : ¬ charRange.length < 1 := by
    cases charRange with
    | nil => exact absurd rfl hrange
    | cons a l => simp
  rw [if_neg h1, if_neg h2] at h
  split at h
  · simp at h
  · obtain ⟨hl, hm⟩ := sampleLoop_ok e charRange _ _ _ _ _ _ _ _ (by omega) h
    refine ⟨by simpa using hl, fun b hb => ?_⟩
    rcases hm b hb with h3 | h3
    · simp at h3
    · exact h3

/-- Witness of C1: 12 bytes over `ABC` from a stream of zero words. -/
theorem RandomStringFromCharRange_length_and_members_witness :
    ((['A', 'A', 'A', 'A', 'A', 'A', 'A', 'A', 'A', 'A', 'A', 'A'] : GoString).length : Int) = 12
      ∧ ∀ b ∈ (['A', 'A', 'A', 'A', 'A', 'A', 'A', 'A', 'A', 'A', 'A', 'A'] : GoString),
          b ∈ (['A', 'B', 'C'] : GoString) :=
  RandomStringFromCharRange_length_and_members (fun _ => Reply.data 0) 100 0 12
    ['A', 'B', 'C'] ['A', 'A', 'A', 'A', 'A', 'A', 'A', 'A', 'A', 'A', 'A', 'A'] 2
    (by decide) (by decide) (by decide)

/-- C2: `RandomStringFromCharRange(length, charRange)` fails with
`ErrInvalidLength` when `length < 1` and with `ErrInvalidCharRange` when
`length >= 1` and `charRange` is empty; in both cases it returns the empty
string and reads nothing from the entropy source (the position is unchanged);
for `length >= 1` and a non-empty `charRange` it returns neither of the two
errors. -/
theorem RandomStringFromCharRange_argument_errors (e : Entropy) (fuel pos : Nat)
    (length : Int) (charRange : GoString) :
    (length < 1 →
        RandomStringFromCharRange e fuel pos length charRange
          = some (([], some Error.ErrInvalidLength), pos))
      ∧ (1 ≤ length → charRange = [] →
        RandomStringFromCharRange e fuel pos length charRange
          = some (([], some Error.ErrInvalidCharRange), pos))
      ∧ (1 ≤ length → charRange ≠ [] →
        ∀ r, RandomStringFromCharRange e fuel pos length charRange = some r →
          r.1.2 ≠ some Error.ErrInvalidLength ∧ r.1.2 ≠ some Error.ErrInvalidCharRange) := by
  refine ⟨fun h => ?_, fun h hc => ?_, fun h hc r hr => ?_⟩
  · unfold RandomStringFromCharRange
    rw [if_pos h]
  · unfold RandomStringFromCharRange
    have h1 : ¬ length < 1 := by omega
    rw [if_neg h1, hc]
    simp
  · unfold RandomStringFromCharRange at hr
    have h1 : ¬ length < 1 := by omega
    have h2 : ¬ charRange.length < 1 := by
      cases charRange with
      | nil => exact absurd rfl hc
      | cons a l => simp
    rw [if_neg h1, if_neg h2] at hr
    split at hr
    · simp only [Option.some.injEq] at hr
      subst hr
      simp
    · obtain ⟨⟨s, err⟩, pos'⟩ := r
      cases err with
      | none => simp
      | some err =>
        have := sampleLoop_error e charRange _ _ _ _ _ _ _ _ _ hr
        subst this
        simp

/-- Witness of C2: length `-2000` over `ABC`, length `1` over the empty range,
and length `1` over `ABC` with a failing source. -/
theorem RandomStringFromCharRange_argument_errors_witness :
    RandomStringFromCharRange (fun _ => Reply.data 0) 100 7 (-2000) ['A', 'B', 'C']
        = some (([], some Error.ErrInvalidLength), 7)
      ∧ RandomStringFromCharRange (fun _ => Reply.data 0) 100 7 1 []
        = some (([], some Error.ErrInvalidCharRange), 7)
      ∧ ((some Error.entropy : Option Error) ≠ some Error.ErrInvalidLength
        ∧ (some Error.entropy : Option Error) ≠ some Error.ErrInvalidCharRange) :=
  ⟨(RandomStringFromCharRange_argument_errors (fun _ => Reply.data 0) 100 7 (-2000)
      ['A', 'B', 'C']).1 (by decide),
   (RandomStringFromCharRange_argument_errors (fun _ => Reply.data 0) 100 7 1 []).2.1
      (by decide) rfl,
   (RandomStringFromCharRange_argument_errors (fun _ => Reply.fail) 100 7 1
      ['A', 'B', 'C']).2.2 (by decide) (by decide) (([], some Error.entropy), 8) (by decide)⟩

/-! ## The bounded draw: `RandNum` -/

/-- C3: for every `bound >= 1`, `RandNum(bound)` returns, when the entropy source
does not fail (its reply is data), a value `v` with `0 <= v < bound` and a nil
error; for every `bound <= 0` it returns `0` with `ErrInvalidLength` and draws
no entropy (the position is unchanged). -/
theorem RandNum_range_and_invalid (e : Entropy) (pos : Nat) (bound : Int) :
    (1 ≤ bound → ∀ n, e pos = Reply.data n →
        ∃ v, RandNum e pos bound = ((v, none), pos + 1) ∧ 0 ≤ v ∧ v < bound)
      ∧ (bound ≤ 0 → RandNum e pos bound = ((0, some Error.ErrInvalidLength), pos)) := by
  refine ⟨fun h n hn => ?_, fun h => ?_⟩
  · refine ⟨(n : Int) % bound, ?_, Int.emod_nonneg _ (by omega), Int.emod_lt_of_pos _ (by omega)⟩
    unfold RandNum randInt
    have h1 : ¬ bound < 1 := by omega
    rw [if_neg h1, hn]
  · unfold RandNum
    have h1 : bound < 1 := by omega
    rw [if_pos h1]

/-- Witness of C3: bound `1000` on the reply `123456`, and bound `-20000`. -/
theorem RandNum_range_and_invalid_witness :
    (∃ v, RandNum (fun _ => Reply.data 123456) 0 1000 = ((v, none), 0 + 1) ∧ 0 ≤ v ∧ v < 1000)
      ∧ RandNum (fun _ => Reply.data 123456) 0 (-20000)
          = ((0, some Error.ErrInvalidLength), 0) :=
  ⟨(RandNum_range_and_invalid (fun _ => Reply.data 123456) 0 1000).1 (by decide) 123456 rfl,
   (RandNum_range_and_invalid (fun _ => Reply.data 123456) 0 (-20000)).2 (by decide)⟩

/-! ## Validation and the rejection loop -/

/-- A successful `RandomStringFromCharRange` had a length of at least 1 and a
non-empty range, and its string has that length over that range. -/
theorem RandomStringFromCharRange_ok (e : Entropy) (fuel pos : Nat) (length : Int)
    (charRange s : GoString) (pos' : Nat)
    (h : RandomStringFromCharRange e fuel pos length charRange = some ((s, none), pos')) :
    1 ≤ length ∧ charRange ≠ [] ∧ (s.length : Int) = length ∧ ∀ b ∈ s, b ∈ charRange := by
  unfold RandomStringFromCharRange at h
  split at h
  · simp at h
  · split at h
    · simp at h
    · rename_i h1 h2
      have hc : charRange ≠ [] := by
        rintro rfl
        simp at h2
      split at h
      · simp at h
      · obtain ⟨hl, hm⟩ := sampleLoop_ok e charRange _ _ _ _ _ _ _ _ (by omega) h
        refine ⟨by omega, hc, by simpa using hl, fun b hb => ?_⟩
        rcases hm b hb with h3 | h3
        · simp at h3
        · exact h3

/-- One of the four checks of `checkMinimumRequirements`: `ok` stays true
exactly when it was true and a minimum `m > 0` is met by the count `c`. -/
theorem minimum_step (ok : Bool) (m c : Int) :
    (if m > 0 then (if c < m then false else ok) else ok) = true
      ↔ (ok = true ∧ (m > 0 → m ≤ c)) := by
  split_ifs <;> simp_all

/-- What `checkMinimumRequirements` tests: each class with a minimum `> 0` has
at least that many occurrences of the characters of its table. -/
theorem checkMinimumRequirements_iff (d : Decls) (cfg : Config) (password : GoString) :
    checkMinimumRequirements d cfg password = true ↔
      (cfg.MinLowerCase > 0 → cfg.MinLowerCase ≤
          countRange (classTable d (d.MaskHasMode cfg.Mode Mode.ModeHumanReadable)
            Mode.ModeLowerCase) password)
      ∧ (cfg.MinNumeric > 0 → cfg.MinNumeric ≤
          countRange (classTable d (d.MaskHasMode cfg.Mode Mode.ModeHumanReadable)
            Mode.ModeNumeric) password)
      ∧ (cfg.MinSpecial > 0 → cfg.MinSpecial ≤
          countRange (classTable d (d.MaskHasMode cfg.Mode Mode.ModeHumanReadable)
            Mode.ModeSpecial) password)
      ∧ (cfg.MinUpperCase > 0 → cfg.MinUpperCase ≤
          countRange (classTable d (d.MaskHasMode cfg.Mode Mode.ModeHumanReadable)
            Mode.ModeUpperCase) password) := by
  unfold checkMinimumRequirements
  simp only [minimum_step, classTable]
  tauto

/-- A password that leaves the rejection loop without error is the result of a
successful `RandomStringFromCharRange` that `checkMinimumRequirements` accepts. -/
theorem generateRandomLoop_ok (d : Decls) (cfg : Config) (e : Entropy) (fuel : Nat)
    (length : Int) (charRange : GoString) :
    ∀ (n pos : Nat) (s : GoString) (pos' : Nat),
      generateRandomLoop d cfg e fuel length charRange n pos = some ((s, none), pos') →
      (∃ pos0, RandomStringFromCharRange e fuel pos0 length charRange = some ((s, none), pos'))
        ∧ checkMinimumRequirements d cfg s = true := by
  intro n
  induction n with
  | zero =>
    intro pos s pos' h
    simp [generateRandomLoop] at h
  | succ n ih =>
    intro pos s pos' h
    rw [generateRandomLoop] at h
    split at h
    · simp at h
    · simp at h
    · rename_i password pos1 hs
      split at h
      · rename_i hok
        simp only [Option.some.injEq, Prod.mk.injEq, and_true] at h
        obtain ⟨rfl, rfl⟩ := h
        exact ⟨⟨pos, hs⟩, hok⟩
      · exact ih _ _ _ h

/-! ## `Generate` -/

/-- C4: for every policy with algorithm Random and every entropy stream,
whenever `Generate` returns a password without error, `GetPasswordLength`
resolved a length without error and the password has exactly that length,
every character of it belongs to the range compiled by
`GetCharRangeFromConfig`, and `checkMinimumRequirements` accepts it.  For
`fixedLength = 5`, mask `{LowerCase, Numeric}` and minima LowerCase 3, Numeric
2: 5 characters, at least 3 of the lower-case table, at least 2 of the numeric
table, and no character outside these two tables. -/
theorem Generate_random_result (d : Decls) (cfg : Config) (e : Entropy) (fuel pos : Nat)
    (s : GoString) (pos' : Nat) (halg : cfg.Algorithm = Algorithm.AlgoRandom)
    (h : Generate d cfg e fuel pos = some ((s, none), pos')) :
    (GetPasswordLength cfg e pos).1.2 = none
      ∧ (s.length : Int) = (GetPasswordLength cfg e pos).1.1
      ∧ (∀ b ∈ s, b ∈ GetCharRangeFromConfig d cfg)
      ∧ checkMinimumRequirements d cfg s = true
      ∧ (cfg.FixedLength = 5 → cfg.MinLowerCase = 3 → cfg.MinNumeric = 2 →
          d.MaskHasMode cfg.Mode Mode.ModeLowerCase = true →
          d.MaskHasMode cfg.Mode Mode.ModeNumeric = true →
          d.MaskHasMode cfg.Mode Mode.ModeSpecial = false →
          d.MaskHasMode cfg.Mode Mode.ModeUpperCase = false →
          d.MaskHasMode cfg.Mode Mode.ModeHumanReadable = false →
          s.length = 5 ∧ 3 ≤ countRange d.CharRangeAlphaLower s
            ∧ 2 ≤ countRange d.CharRangeNumeric s
            ∧ ∀ b ∈ s, b ∈ d.CharRangeAlphaLower ∨ b ∈ d.CharRangeNumeric) := by
  unfold Generate at h
  rw [halg] at h
  simp only at h
  unfold generateRandom at h
  split at h
  · simp at h
  · rename_i length pos1 hlen
    obtain ⟨⟨pos0, hs⟩, hok⟩ := generateRandomLoop_ok d cfg e fuel _ _ _ _ _ _ h
    obtain ⟨-, -, hl, hm⟩ := RandomStringFromCharRange_ok e fuel pos0 _ _ _ _ hs
    rw [hlen]
    refine ⟨rfl, hl, hm, hok, ?_⟩
    intro hf hlo hnu mlo mnu msp mup mhu
    have hfix : length = 5 := by
      unfold GetPasswordLength at hlen
      rw [if_pos (by omega)] at hlen
      simp only [Prod.mk.injEq, and_true] at hlen
      omega
    have hchk := (checkMinimumRequirements_iff d cfg s).1 hok
    rw [mhu, hlo, hnu] at hchk
    simp only [classTable, Bool.false_eq_true, if_false] at hchk
    refine ⟨by omega, hchk.1 (by decide), hchk.2.1 (by decide), fun b hb => ?_⟩
    have := hm b hb
    unfold GetCharRangeFromConfig at this
    simp only [mlo, mnu, msp, mup, mhu, if_true, Bool.false_eq_true, if_false,
      List.nil_append] at this
    exact List.mem_append.1 this

/-- Witness of C4: the example policy on the example stream yields `n0au6`
after 14 reads. -/
theorem Generate_random_result_witness :
    (GetPasswordLength examplePolicy exampleEntropy 0).1.2 = none
      ∧ ((['n', '0', 'a', 'u', '6'] : GoString).length : Int)
          = (GetPasswordLength examplePolicy exampleEntropy 0).1.1
      ∧ (∀ b ∈ (['n', '0', 'a', 'u', '6'] : GoString),
          b ∈ GetCharRangeFromConfig apgDecls examplePolicy)
      ∧ checkMinimumRequirements apgDecls examplePolicy ['n', '0', 'a', 'u', '6'] = true
      ∧ ((['n', '0', 'a', 'u', '6'] : GoString).length = 5
        ∧ 3 ≤ countRange apgDecls.CharRangeAlphaLower ['n', '0', 'a', 'u', '6']
        ∧ 2 ≤ countRange apgDecls.CharRangeNumeric ['n', '0', 'a', 'u', '6']
        ∧ ∀ b ∈ (['n', '0', 'a', 'u', '6'] : GoString),
            b ∈ apgDecls.CharRangeAlphaLower ∨ b ∈ apgDecls.CharRangeNumeric) :=
  have w := Generate_random_result apgDecls examplePolicy exampleEntropy 100 0
    ['n', '0', 'a', 'u', '6'] 14 rfl (by decide)
  ⟨w.1, w.2.1, w.2.2.1, w.2.2.2.1,
    w.2.2.2.2 rfl rfl rfl (by decide) (by decide) (by decide) (by decide) (by decide)⟩

/-- C5: for every policy whose algorithm is Unsupported, `Generate` returns the
empty string together with a non-nil error, and reads nothing from the entropy
source (the position is unchanged). -/
theorem Generate_unsupported (d : Decls) (cfg : Config) (e : Entropy) (fuel pos : Nat)
    (halg : cfg.Algorithm = Algorithm.AlgoUnsupported) :
    ∃ err, Generate d cfg e fuel pos = some (([], some err), pos) := by
  unfold Generate
  rw [halg]
  exact ⟨_, rfl⟩

/-- Witness of C5: the unsupported policy at position 3 of the example stream. -/
theorem Generate_unsupported_witness :
    ∃ err, Generate apgDecls unsupportedPolicy exampleEntropy 100 3 = some (([], some err), 3) :=
  Generate_unsupported apgDecls unsupportedPolicy exampleEntropy 100 3 rfl

/-- C6, the code at the failing input: with the pronounceable algorithm
`Generate` falls through its `switch` and returns the empty string with a nil
error, whatever the declarations, the entropy and the budget. -/
theorem Generate_pronounceable_nil_error (d : Decls) (e : Entropy) (fuel pos : Nat) :
    Generate d pronounceablePolicy e fuel pos = some (([], none), pos) := by
  rfl

/-- The value of `CoinFlip` is 0 or 1. -/
theorem CoinFlip_zero_or_one (e : Entropy) (pos : Nat) :
    (CoinFlip e pos).1 = 0 ∨ (CoinFlip e pos).1 = 1 := by
  unfold CoinFlip RandNum randInt
  rw [if_neg (by decide)]
  cases e pos with
  | fail => exact Or.inl rfl
  | data n =>
    simp only
    omega

/-- C7: for every policy whose algorithm is CoinFlip, `Generate` returns a nil
error and one of the strings `Heads` and `Tails`: `Heads` exactly when
`CoinFlipBool` is true, that is when the draw `RandNum(2)` yields 1, and
`Tails` otherwise; `CoinFlip` itself returns 0 or 1. -/
theorem Generate_coinflip (d : Decls) (cfg : Config) (e : Entropy) (fuel pos : Nat)
    (halg : cfg.Algorithm = Algorithm.AlgoCoinFlip) :
    ((CoinFlipBool e pos).1 = true ↔ (RandNum e pos 2).1.1 = 1)
      ∧ ((CoinFlipBool e pos).1 = true →
          Generate d cfg e fuel pos
            = some ((['H', 'e', 'a', 'd', 's'], none), (RandNum e pos 2).2))
      ∧ ((CoinFlipBool e pos).1 = false →
          Generate d cfg e fuel pos
            = some ((['T', 'a', 'i', 'l', 's'], none), (RandNum e pos 2).2))
      ∧ ((CoinFlip e pos).1 = 0 ∨ (CoinFlip e pos).1 = 1) := by
  refine ⟨?_, fun hb => ?_, fun hb => ?_, CoinFlip_zero_or_one e pos⟩
  · simp [CoinFlipBool, CoinFlip]
  · unfold Generate generateCoinFlip
    rw [halg]
    simp only [hb, if_true]
    rfl
  · unfold Generate generateCoinFlip
    rw [halg]
    simp only [hb, Bool.false_eq_true, if_false]
    rfl

/-- Witness of C7: the coin policy on a stream of words 1 yields `Heads`. -/
theorem Generate_coinflip_witness :
    ((CoinFlipBool (fun _ => Reply.data 1) 0).1 = true
        ↔ (RandNum (fun _ => Reply.data 1) 0 2).1.1 = 1)
      ∧ Generate apgDecls coinPolicy (fun _ => Reply.data 1) 100 0
          = some ((['H', 'e', 'a', 'd', 's'], none), (RandNum (fun _ => Reply.data 1) 0 2).2)
      ∧ Generate apgDecls coinPolicy failingEntropy 100 0
          = some ((['T', 'a', 'i', 'l', 's'], none), (RandNum failingEntropy 0 2).2)
      ∧ ((CoinFlip (fun _ => Reply.data 1) 0).1 = 0 ∨ (CoinFlip (fun _ => Reply.data 1) 0).1 = 1) :=
  ⟨(Generate_coinflip apgDecls coinPolicy (fun _ => Reply.data 1) 100 0 rfl).1,
   (Generate_coinflip apgDecls coinPolicy (fun _ => Reply.data 1) 100 0 rfl).2.1 (by decide),
   (Generate_coinflip apgDecls coinPolicy failingEntropy 100 0 rfl).2.2.1 (by decide),
   (Generate_coinflip apgDecls coinPolicy (fun _ => Reply.data 1) 100 0 rfl).2.2.2⟩

/-! ## Failures of the entropy source -/

/-- Runs without failure compose. -/
theorem noFailure_trans (e : Entropy) (a b c : Nat) (h1 : noFailure e a b)
    (h2 : noFailure e b c) : noFailure e a c := by
  intro p hp hq
  by_cases h : p < b
  · exact h1 p hp h
  · exact h2 p (by omega) hq

/-- A draw of `RandNum` that returns no error consumed no failed reply. -/
theorem RandNum_noFailure (e : Entropy) (pos : Nat) (max v : Int) (pos1 : Nat)
    (h : RandNum e pos max = ((v, none), pos1)) : noFailure e pos pos1 := by
  unfold RandNum randInt at h
  split at h
  · simp at h
  · cases he : e pos with
    | fail =>
      rw [he] at h
      simp at h
    | data n =>
      rw [he] at h
      simp only [Prod.mk.injEq, and_true] at h
      obtain ⟨-, rfl⟩ := h
      intro p hp hq
      have : p = pos := by omega
      rw [this, he]
      simp

/-- A length resolution that returns no error consumed no failed reply. -/
theorem GetPasswordLength_noFailure (cfg : Config) (e : Entropy) (pos : Nat) (v : Int)
    (pos1 : Nat) (h : GetPasswordLength cfg e pos = ((v, none), pos1)) :
    noFailure e pos pos1 := by
  unfold GetPasswordLength at h
  split at h
  · simp only [Prod.mk.injEq, and_true] at h
    obtain ⟨-, rfl⟩ := h
    intro p hp hq
    omega
  · simp only at h
    split at h
    · simp at h
    · rename_i randNum pos2 hr
      have hn := RandNum_noFailure e pos _ _ _ hr
      split at h <;>
        · simp only [Prod.mk.injEq, and_true] at h
          obtain ⟨-, rfl⟩ := h
          exact hn

/-- A successful read of the pool consumed no failed reply. -/
theorem randRead8_noFailure (e : Entropy) (pos : Nat) (randPool : List Nat) (pos1 : Nat)
    (h : randRead8 e pos = (some randPool, pos1)) : noFailure e pos pos1 := by
  unfold randRead8 at h
  cases he : e pos with
  | fail =>
    rw [he] at h
    simp at h
  | data n =>
    rw [he] at h
    simp only [Prod.mk.injEq] at h
    obtain ⟨-, rfl⟩ := h
    intro p hp hq
    have : p = pos := by omega
    rw [this, he]
    simp

/-- A refill that returns no error consumed no failed reply. -/
theorem refill_noFailure (e : Entropy) (pos char rest : Nat) (x : Nat × Nat) (pos1 : Nat)
    (h : refill e pos char rest = (Except.ok x, pos1)) : noFailure e pos pos1 := by
  unfold refill at h
  split at h
  · split at h
    · simp at h
    · rename_i randPool pos2 hr
      simp only [Prod.mk.injEq] at h
      obtain ⟨-, rfl⟩ := h
      exact randRead8_noFailure e pos _ _ hr
  · simp only [Prod.mk.injEq] at h
    obtain ⟨-, rfl⟩ := h
    intro p hp hq
    omega

/-- A run of the sampling loop that ends without error consumed no failed
reply. -/
theorem sampleLoop_noFailure (e : Entropy) (charRange : GoString) :
    ∀ (fuel pos : Nat) (idx : Int) (char rest : Nat) (acc s : GoString) (pos' : Nat),
      sampleLoop e charRange fuel pos idx char rest acc = some ((s, none), pos') →
      noFailure e pos pos' := by
  intro fuel
  induction fuel with
  | zero =>
    intro pos idx char rest acc s pos' h
    simp [sampleLoop] at h
  | succ n ih =>
    intro pos idx char rest acc s pos' h
    rw [sampleLoop] at h
    split at h
    · simp only [Option.some.injEq, Prod.mk.injEq, and_true] at h
      obtain ⟨-, rfl⟩ := h
      intro p hp hq
      omega
    · split at h
      · simp at h
      · rename_i char1 rest1 pos1 hre
        have h1 := refill_noFailure e pos char rest _ _ hre
        split at h
        · exact noFailure_trans e _ _ _ h1 (ih _ _ _ _ _ _ _ h)
        · exact noFailure_trans e _ _ _ h1 (ih _ _ _ _ _ _ _ h)

/-- A `RandomStringFromCharRange` that returns no error consumed no failed
reply. -/
theorem RandomStringFromCharRange_noFailure (e : Entropy) (fuel pos : Nat) (length : Int)
    (charRange s : GoString) (pos' : Nat)
    (h : RandomStringFromCharRange e fuel pos length charRange = some ((s, none), pos')) :
    noFailure e pos pos' := by
  unfold RandomStringFromCharRange at h
  split at h
  · simp at h
  · split at h
    · simp at h
    · split at h
      · simp at h
      · rename_i randPool pos1 hr
        exact noFailure_trans e _ _ _ (randRead8_noFailure e pos _ _ hr)
          (sampleLoop_noFailure e charRange _ _ _ _ _ _ _ _ h)

/-- A rejection loop that returns no error consumed no failed reply. -/
theorem generateRandomLoop_noFailure (d : Decls) (cfg : Config) (e : Entropy) (fuel : Nat)
    (length : Int) (charRange : GoString) :
    ∀ (n pos : Nat) (s : GoString) (pos' : Nat),
      generateRandomLoop d cfg e fuel length charRange n pos = some ((s, none), pos') →
      noFailure e pos pos' := by
  intro n
  induction n with
  | zero =>
    intro pos s pos' h
    simp [generateRandomLoop] at h
  | succ n ih =>
    intro pos s pos' h
    rw [generateRandomLoop] at h
    split at h
    · simp at h
    · simp at h
    · rename_i password pos1 hs
      have h1 := RandomStringFromCharRange_noFailure e fuel pos _ _ _ _ hs
      split at h
      · simp only [Option.some.injEq, Prod.mk.injEq, and_true] at h
        obtain ⟨-, rfl⟩ := h
        exact h1
      · exact noFailure_trans e _ _ _ h1 (ih _ _ _ h)

/-- C8 as stated fails: with the coin-flip algorithm and a source whose read
fails, `Generate` consumes the failed reply at position 0 and returns `Tails`
with a nil error. -/
theorem Generate_coinflip_swallows_failure :
    failingEntropy 0 = Reply.fail
      ∧ Generate apgDecls coinPolicy failingEntropy 100 0
          = some ((['T', 'a', 'i', 'l', 's'], none), 1) := by
  decide

/-- C8, amended: for every policy whose algorithm is not CoinFlip, if a read of
the entropy source fails during `Generate` (a reply that `Generate` consumed is
a failure), then `Generate` returns a non-nil error to its caller. -/
theorem Generate_reports_entropy_failure (d : Decls) (cfg : Config) (e : Entropy)
    (fuel pos : Nat) (s : GoString) (err : Option Error) (pos' : Nat)
    (halg : cfg.Algorithm ≠ Algorithm.AlgoCoinFlip)
    (h : Generate d cfg e fuel pos = some ((s, err), pos'))
    (hfail : ∃ p, pos ≤ p ∧ p < pos' ∧ e p = Reply.fail) :
    err ≠ none := by
  rintro rfl
  obtain ⟨p, hp, hq, hf⟩ := hfail
  have hno : noFailure e pos pos' := by
    unfold Generate at h
    split at h
    · rename_i ha
      exact absurd ha halg
    · unfold generateRandom at h
      split at h
      · simp at h
      · rename_i length pos1 hlen
        exact noFailure_trans e _ _ _ (GetPasswordLength_noFailure cfg e pos _ _ hlen)
          (generateRandomLoop_noFailure d cfg e fuel _ _ _ _ _ _ h)
    · simp at h
    · simp only [Option.some.injEq, Prod.mk.injEq, true_and] at h
      obtain ⟨-, rfl⟩ := h
      intro p hp hq
      omega
  exact hno p hp hq hf

/-- Witness of C8, amended: the example policy (algorithm Random) on a source
whose read fails returns the error of the read. -/
theorem Generate_reports_entropy_failure_witness :
    (some Error.entropy : Option Error) ≠ none :=
  Generate_reports_entropy_failure apgDecls examplePolicy failingEntropy 100 0 []
    (some Error.entropy) 1 (by decide) (by decide) ⟨0, by decide, by decide, rfl⟩

/-! ## Length resolution and range compilation -/

/-- On the values of `int64` the wrap-around is the identity. -/
theorem wrap64_of_isInt64 (x : Int) (h : isInt64 x) : wrap64 x = x := by
  unfold isInt64 at h
  unfold wrap64
  omega

/-- C9: `GetPasswordLength` returns `fixedLength` unchanged, whatever
`minLength` and `maxLength` are and without drawing entropy (the position is
unchanged), when `fixedLength > 0`; otherwise, for every policy with
`1 <= minLength <= maxLength` (an `int64`), whenever the draw does not fail it
returns `minLength + RandNum(maxLength - minLength + 1)`, a value in the closed
interval `[minLength, maxLength]`. -/
theorem GetPasswordLength_fixed_or_drawn (cfg : Config) (e : Entropy) (pos : Nat) :
    (cfg.FixedLength > 0 → GetPasswordLength cfg e pos = ((cfg.FixedLength, none), pos))
      ∧ (cfg.FixedLength ≤ 0 → 1 ≤ cfg.MinLength → cfg.MinLength ≤ cfg.MaxLength →
          isInt64 cfg.MaxLength → ∀ n, e pos = Reply.data n →
            GetPasswordLength cfg e pos
                = ((cfg.MinLength
                    + (RandNum e pos (cfg.MaxLength - cfg.MinLength + 1)).1.1, none), pos + 1)
              ∧ (RandNum e pos (cfg.MaxLength - cfg.MinLength + 1)).1.2 = none
              ∧ cfg.MinLength ≤ (GetPasswordLength cfg e pos).1.1
              ∧ (GetPasswordLength cfg e pos).1.1 ≤ cfg.MaxLength) := by
  refine ⟨fun h => ?_, fun hf hmin hle hmax n hn => ?_⟩
  · unfold GetPasswordLength
    rw [if_pos h]
  · have hmax' := hmax
    unfold isInt64 at hmax'
    have hd1 : wrap64 (cfg.MaxLength - cfg.MinLength) = cfg.MaxLength - cfg.MinLength :=
      wrap64_of_isInt64 _ (by unfold isInt64; omega)
    have hd2 : wrap64 (cfg.MaxLength - cfg.MinLength + 1) = cfg.MaxLength - cfg.MinLength + 1 :=
      wrap64_of_isInt64 _ (by unfold isInt64; omega)
    have hb : ¬ cfg.MaxLength - cfg.MinLength + 1 < 1 := by omega
    have hr : RandNum e pos (cfg.MaxLength - cfg.MinLength + 1)
        = (((n : Int) % (cfg.MaxLength - cfg.MinLength + 1), none), pos + 1) := by
      unfold RandNum randInt
      rw [if_neg hb, hn]
    have h0 : 0 ≤ (n : Int) % (cfg.MaxLength - cfg.MinLength + 1) :=
      Int.emod_nonneg _ (by omega)
    have h1 : (n : Int) % (cfg.MaxLength - cfg.MinLength + 1)
        < cfg.MaxLength - cfg.MinLength + 1 := Int.emod_lt_of_pos _ (by omega)
    have hw : wrap64 (cfg.MinLength + (n : Int) % (cfg.MaxLength - cfg.MinLength + 1))
        = cfg.MinLength + (n : Int) % (cfg.MaxLength - cfg.MinLength + 1) :=
      wrap64_of_isInt64 _ (by unfold isInt64; omega)
    have hg : GetPasswordLength cfg e pos
        = ((cfg.MinLength + (n : Int) % (cfg.MaxLength - cfg.MinLength + 1), none), pos + 1) := by
      unfold GetPasswordLength
      rw [if_neg (by omega)]
      simp only
      rw [if_neg (by omega), hd1, hd2, hr]
      simp only
      rw [hw, if_neg (by omega)]
    rw [hg, hr]
    exact ⟨rfl, rfl, by simp only; omega, by simp only; omega⟩

/-- Witness of C9: fixed length 5 at position 3, and the range policy
(`minLength = 8`, `maxLength = 12`) on the reply `12345` at position 0. -/
theorem GetPasswordLength_fixed_or_drawn_witness :
    GetPasswordLength examplePolicy exampleEntropy 3 = ((examplePolicy.FixedLength, none), 3)
      ∧ (GetPasswordLength rangePolicy exampleEntropy 0
            = ((rangePolicy.MinLength
                + (RandNum exampleEntropy 0
                    (rangePolicy.MaxLength - rangePolicy.MinLength + 1)).1.1, none), 0 + 1)
          ∧ (RandNum exampleEntropy 0
              (rangePolicy.MaxLength - rangePolicy.MinLength + 1)).1.2 = none
          ∧ rangePolicy.MinLength ≤ (GetPasswordLength rangePolicy exampleEntropy 0).1.1
          ∧ (GetPasswordLength rangePolicy exampleEntropy 0).1.1 ≤ rangePolicy.MaxLength) :=
  ⟨(GetPasswordLength_fixed_or_drawn examplePolicy exampleEntropy 3).1 (by decide),
   (GetPasswordLength_fixed_or_drawn rangePolicy exampleEntropy 0).2 (by decide) (by decide)
      (by decide) (by decide) 12345 rfl⟩

/-- C10: for every mode mask, `GetCharRangeFromConfig` returns exactly the
concatenation, in the fixed order LowerCase, Numeric, Special, UpperCase, of
the tables of the classes whose bit is set, each class with its human-readable
table when the human-readable bit is set and its full table otherwise; a class
whose bit is clear contributes nothing, so the result is the empty string when
no class bit is set. -/
theorem GetCharRangeFromConfig_eq_spec (d : Decls) (cfg : Config) :
    GetCharRangeFromConfig d cfg = specCharRange d cfg.Mode
      ∧ (∀ m, d.MaskHasMode cfg.Mode m = false → classPart d cfg.Mode m = [])
      ∧ (d.MaskHasMode cfg.Mode Mode.ModeLowerCase = false →
          d.MaskHasMode cfg.Mode Mode.ModeNumeric = false →
          d.MaskHasMode cfg.Mode Mode.ModeSpecial = false →
          d.MaskHasMode cfg.Mode Mode.ModeUpperCase = false →
          GetCharRangeFromConfig d cfg = []) := by
  refine ⟨?_, fun m hm => ?_, fun h1 h2 h3 h4 => ?_⟩
  · unfold GetCharRangeFromConfig specCharRange classPart classTable
    cases d.MaskHasMode cfg.Mode Mode.ModeLowerCase <;>
      cases d.MaskHasMode cfg.Mode Mode.ModeNumeric <;>
      cases d.MaskHasMode cfg.Mode Mode.ModeSpecial <;>
      cases d.MaskHasMode cfg.Mode Mode.ModeUpperCase <;>
      cases d.MaskHasMode cfg.Mode Mode.ModeHumanReadable <;>
      simp
  · unfold classPart
    rw [hm]
    rfl
  · unfold GetCharRangeFromConfig
    rw [h1, h2, h3, h4]
    rfl

/-- Witness of C10: the mask with only the human-readable bit (16) compiles to
the empty range, and the mask `{LowerCase, Numeric}` (3) has no special part. -/
theorem GetCharRangeFromConfig_eq_spec_witness :
    GetCharRangeFromConfig apgDecls { examplePolicy with Mode := 16 }
        = specCharRange apgDecls 16
      ∧ classPart apgDecls 3 Mode.ModeSpecial = []
      ∧ GetCharRangeFromConfig apgDecls { examplePolicy with Mode := 16 } = [] :=
  ⟨(GetCharRangeFromConfig_eq_spec apgDecls { examplePolicy with Mode := 16 }).1,
   (GetCharRangeFromConfig_eq_spec apgDecls examplePolicy).2.1 Mode.ModeSpecial (by decide),
   (GetCharRangeFromConfig_eq_spec apgDecls { examplePolicy with Mode := 16 }).2.2
      (by decide) (by decide) (by decide) (by decide)⟩

/-! ## Validation counts, candidates and the reference sampler -/

theorem foldl_add_eq (f : Char → Int) : ∀ (l : List Char) (a : Int),
    l.foldl (fun count char => count + f char) a = a + (l.map f).sum := by
  intro l
  induction l with
  | nil => intro a; simp
  | cons x l ih =>
    intro a
    simp only [List.foldl_cons, List.map_cons, List.sum_cons]
    rw [ih]
    omega

theorem countRange_eq_sum (table password : GoString) :
    countRange table password = (table.map (fun c => (password.count c : Int))).sum := by
  unfold countRange
  rw [foldl_add_eq]
  simp

theorem countRange_append (a b password : GoString) :
    countRange (a ++ b) password = countRange a password + countRange b password := by
  simp [countRange_eq_sum]

theorem countRange_nil (password : GoString) : countRange [] password = 0 := rfl

theorem countRange_cons (c : Char) (t password : GoString) :
    countRange (c :: t) password = (password.count c : Int) + countRange t password := by
  simp [countRange_eq_sum]

theorem occurrences_cons_table (c : Char) (t : GoString) (hc : c ∉ t) :
    ∀ password : GoString,
      occurrences (c :: t) password = (password.count c : Int) + occurrences t password := by
  intro password
  induction password with
  | nil => simp [occurrences]
  | cons x p ih =>
    unfold occurrences at ih ⊢
    by_cases hx : x = c
    · subst hx
      simp [List.filter_cons, hc] at ih ⊢
      omega
    · have hx' : c ≠ x := fun h => hx h.symm
      by_cases hm : x ∈ t
      · simp [List.filter_cons, hx, hm, List.count_cons, hx'] at ih ⊢
        omega
      · simp [List.filter_cons, hx, hm, List.count_cons, hx'] at ih ⊢
        omega

theorem countRange_eq_occurrences (table password : GoString) (h : table.Nodup) :
    countRange table password = occurrences table password := by
  induction table with
  | nil => simp [countRange_nil, occurrences]
  | cons c t ih =>
    rw [List.nodup_cons] at h
    rw [countRange_cons, occurrences_cons_table c t h.1, ih h.2]

theorem occurrences_le_length (table password : GoString) :
    occurrences table password ≤ password.length := by
  unfold occurrences
  exact_mod_cast List.length_filter_le _ _

theorem countRange_nonneg (table password : GoString) : 0 ≤ countRange table password := by
  induction table with
  | nil => simp [countRange_nil]
  | cons c t ih => rw [countRange_cons]; omega

theorem countRange_ge_count (table password : GoString) (c : Char) (hc : c ∈ table) :
    (password.count c : Int) ≤ countRange table password := by
  induction table with
  | nil => simp at hc
  | cons x t ih =>
    rw [countRange_cons]
    rcases List.mem_cons.1 hc with h | h
    · subst h
      have := countRange_nonneg t password
      omega
    · have := ih h
      omega

theorem countRange_eq_zero (table password : GoString) (h : ∀ b ∈ password, b ∉ table) :
    countRange table password = 0 := by
  induction table with
  | nil => rfl
  | cons x t ih =>
    rw [countRange_cons, ih (fun b hb hm => h b hb (List.mem_cons_of_mem _ hm))]
    have : password.count x = 0 := List.count_eq_zero.2 (fun hx => h x hx (List.mem_cons_self _ _))
    simp [this]

/-- C11: for every candidate string and policy (class tables without
duplicates), `checkMinimumRequirements` returns true if and only if, for each of
the four classes whose configured minimum is `> 0`, the number of occurrences
in the candidate of characters of that class's table (the human-readable table
when the toggle is set, the full table otherwise) is at least that minimum; with
no minimum `> 0` it returns true for every candidate, whatever its content. -/
theorem checkMinimumRequirements_spec (d : Decls) (cfg : Config) (password : GoString)
    (hl : (classTable d (d.MaskHasMode cfg.Mode Mode.ModeHumanReadable) Mode.ModeLowerCase).Nodup)
    (hn : (classTable d (d.MaskHasMode cfg.Mode Mode.ModeHumanReadable) Mode.ModeNumeric).Nodup)
    (hs : (classTable d (d.MaskHasMode cfg.Mode Mode.ModeHumanReadable) Mode.ModeSpecial).Nodup)
    (hu : (classTable d (d.MaskHasMode cfg.Mode Mode.ModeHumanReadable) Mode.ModeUpperCase).Nodup) :
    (checkMinimumRequirements d cfg password = true ↔
      (cfg.MinLowerCase > 0 → cfg.MinLowerCase ≤
          occurrences (classTable d (d.MaskHasMode cfg.Mode Mode.ModeHumanReadable)
            Mode.ModeLowerCase) password)
      ∧ (cfg.MinNumeric > 0 → cfg.MinNumeric ≤
          occurrences (classTable d (d.MaskHasMode cfg.Mode Mode.ModeHumanReadable)
            Mode.ModeNumeric) password)
      ∧ (cfg.MinSpecial > 0 → cfg.MinSpecial ≤
          occurrences (classTable d (d.MaskHasMode cfg.Mode Mode.ModeHumanReadable)
            Mode.ModeSpecial) password)
      ∧ (cfg.MinUpperCase > 0 → cfg.MinUpperCase ≤
          occurrences (classTable d (d.MaskHasMode cfg.Mode Mode.ModeHumanReadable)
            Mode.ModeUpperCase) password))
    ∧ (cfg.MinLowerCase ≤ 0 → cfg.MinNumeric ≤ 0 → cfg.MinSpecial ≤ 0 → cfg.MinUpperCase ≤ 0 →
        checkMinimumRequirements d cfg password = true) := by
  constructor
  · rw [checkMinimumRequirements_iff, countRange_eq_occurrences _ _ hl,
      countRange_eq_occurrences _ _ hn, countRange_eq_occurrences _ _ hs,
      countRange_eq_occurrences _ _ hu]
  · intro h1 h2 h3 h4
    rw [checkMinimumRequirements_iff]
    exact ⟨fun h => absurd h (by omega), fun h => absurd h (by omega),
      fun h => absurd h (by omega), fun h => absurd h (by omega)⟩

theorem sumMinima_le_length (d : Decls) (cfg : Config) (s : GoString)
    (hd : tablesDisjoint d (d.MaskHasMode cfg.Mode Mode.ModeHumanReadable))
    (h : checkMinimumRequirements d cfg s = true) : sumMinima cfg ≤ s.length := by
  rw [checkMinimumRequirements_iff] at h
  obtain ⟨h1, h2, h3, h4⟩ := h
  have hocc := occurrences_le_length
    (classTable d (d.MaskHasMode cfg.Mode Mode.ModeHumanReadable) Mode.ModeLowerCase
      ++ classTable d (d.MaskHasMode cfg.Mode Mode.ModeHumanReadable) Mode.ModeNumeric
      ++ classTable d (d.MaskHasMode cfg.Mode Mode.ModeHumanReadable) Mode.ModeSpecial
      ++ classTable d (d.MaskHasMode cfg.Mode Mode.ModeHumanReadable) Mode.ModeUpperCase) s
  rw [← countRange_eq_occurrences _ _ hd, countRange_append, countRange_append,
    countRange_append] at hocc
  have n1 := countRange_nonneg
    (classTable d (d.MaskHasMode cfg.Mode Mode.ModeHumanReadable) Mode.ModeLowerCase) s
  have n2 := countRange_nonneg
    (classTable d (d.MaskHasMode cfg.Mode Mode.ModeHumanReadable) Mode.ModeNumeric) s
  have n3 := countRange_nonneg
    (classTable d (d.MaskHasMode cfg.Mode Mode.ModeHumanReadable) Mode.ModeSpecial) s
  have n4 := countRange_nonneg
    (classTable d (d.MaskHasMode cfg.Mode Mode.ModeHumanReadable) Mode.ModeUpperCase) s
  unfold sumMinima
  omega

theorem Generate_random_ok (d : Decls) (cfg : Config) (e : Entropy) (fuel pos : Nat)
    (s : GoString) (pos' : Nat) (halg : cfg.Algorithm = Algorithm.AlgoRandom)
    (h : Generate d cfg e fuel pos = some ((s, none), pos')) :
    (GetPasswordLength cfg e pos).1.2 = none
      ∧ (s.length : Int) = (GetPasswordLength cfg e pos).1.1
      ∧ (∀ b ∈ s, b ∈ GetCharRangeFromConfig d cfg)
      ∧ checkMinimumRequirements d cfg s = true := by
  unfold Generate at h
  rw [halg] at h
  simp only at h
  unfold generateRandom at h
  split at h
  · simp at h
  · rename_i length pos1 hlen
    obtain ⟨⟨pos0, hs⟩, hok⟩ := generateRandomLoop_ok d cfg e fuel _ _ _ _ _ _ h
    obtain ⟨-, -, hl, hm⟩ := RandomStringFromCharRange_ok e fuel pos0 _ _ _ _ hs
    rw [hlen]
    exact ⟨rfl, hl, hm, hok⟩

/-- C14: for every policy (with duplicate-free, pairwise disjoint class
tables) whose positive class minima sum to more than a length `L`,
`checkMinimumRequirements` rejects every string of length `L`; so when the
minima sum to more than the resolved length, for every entropy stream and
every budget the rejection loop of `generateRandom` never reaches its
successful return. -/
theorem unsatisfiable_minima_never_accepted (d : Decls) (cfg : Config)
    (hd : tablesDisjoint d (d.MaskHasMode cfg.Mode Mode.ModeHumanReadable)) :
    (∀ s : GoString, (s.length : Int) < sumMinima cfg →
        checkMinimumRequirements d cfg s = false)
      ∧ (∀ (e : Entropy) (fuel pos : Nat) (s : GoString) (pos' : Nat),
          cfg.Algorithm = Algorithm.AlgoRandom →
          (GetPasswordLength cfg e pos).1.1 < sumMinima cfg →
          Generate d cfg e fuel pos ≠ some ((s, none), pos')) := by
  constructor
  · intro s hs
    cases hc : checkMinimumRequirements d cfg s with
    | false => rfl
    | true =>
      have := sumMinima_le_length d cfg s hd hc
      omega
  · intro e fuel pos s pos' halg hlt h
    obtain ⟨-, hl, -, hok⟩ := Generate_random_ok d cfg e fuel pos s pos' halg h
    have := sumMinima_le_length d cfg s hd hok
    omega

theorem GetCharRangeFromConfig_eq_specCharRange (d : Decls) (cfg : Config) :
    GetCharRangeFromConfig d cfg = specCharRange d cfg.Mode := by
  unfold GetCharRangeFromConfig specCharRange classPart classTable
  cases d.MaskHasMode cfg.Mode Mode.ModeLowerCase <;>
    cases d.MaskHasMode cfg.Mode Mode.ModeNumeric <;>
    cases d.MaskHasMode cfg.Mode Mode.ModeSpecial <;>
    cases d.MaskHasMode cfg.Mode Mode.ModeUpperCase <;>
    cases d.MaskHasMode cfg.Mode Mode.ModeHumanReadable <;>
    simp

/-- A non-empty class part lies in the class table and in the compiled range. -/
theorem classPart_head (d : Decls) (cfg : Config) (m : Mode) (x : Char)
    (hm : m ≠ Mode.ModeHumanReadable) (h : classPart d cfg.Mode m ≠ []) :
    (classPart d cfg.Mode m).headD x
        ∈ classTable d (d.MaskHasMode cfg.Mode Mode.ModeHumanReadable) m
      ∧ (classPart d cfg.Mode m).headD x ∈ GetCharRangeFromConfig d cfg := by
  have hmem : (classPart d cfg.Mode m).headD x ∈ classPart d cfg.Mode m := by
    cases hp : classPart d cfg.Mode m with
    | nil => exact absurd hp h
    | cons a l => simp
  constructor
  · have : classPart d cfg.Mode m
        = classTable d (d.MaskHasMode cfg.Mode Mode.ModeHumanReadable) m := by
      unfold classPart at h ⊢
      split
      · rfl
      · rename_i hb
        rw [if_neg hb] at h
        exact absurd rfl h
    rw [← this]
    exact hmem
  · rw [GetCharRangeFromConfig_eq_specCharRange]
    unfold specCharRange
    cases m with
    | ModeHumanReadable => exact absurd rfl hm
    | ModeLowerCase =>
      simp only [List.mem_append]
      exact Or.inl (Or.inl (Or.inl hmem))
    | ModeNumeric =>
      simp only [List.mem_append]
      exact Or.inl (Or.inl (Or.inr hmem))
    | ModeSpecial =>
      simp only [List.mem_append]
      exact Or.inl (Or.inr hmem)
    | ModeUpperCase =>
      simp only [List.mem_append]
      exact Or.inr hmem

/-- C15 as stated fails: with fixed length 5, only the lower-case class enabled
and a numeric minimum of 1, the minima sum to 1, at most the resolved length 5,
and yet `checkMinimumRequirements` rejects every string over the compiled
range. -/
theorem consistent_minima_not_sufficient :
    lowerOnlyPolicy.Algorithm = Algorithm.AlgoRandom
      ∧ sumMinima lowerOnlyPolicy ≤ (GetPasswordLength lowerOnlyPolicy exampleEntropy 0).1.1
      ∧ ¬ ∃ s : GoString,
          (s.length : Int) = (GetPasswordLength lowerOnlyPolicy exampleEntropy 0).1.1
            ∧ (∀ b ∈ s, b ∈ GetCharRangeFromConfig apgDecls lowerOnlyPolicy)
            ∧ checkMinimumRequirements apgDecls lowerOnlyPolicy s = true := by
  refine ⟨rfl, by decide, ?_⟩
  rintro ⟨s, -, hm, hc⟩
  rw [checkMinimumRequirements_iff] at hc
  have h1 := hc.2.1 (by decide)
  have hz : countRange (classTable apgDecls
      (apgDecls.MaskHasMode lowerOnlyPolicy.Mode Mode.ModeHumanReadable) Mode.ModeNumeric) s
      = 0 := by
    apply countRange_eq_zero
    intro b hb
    have hb' := hm b hb
    have hall : ∀ c ∈ GetCharRangeFromConfig apgDecls lowerOnlyPolicy,
        c ∉ classTable apgDecls
          (apgDecls.MaskHasMode lowerOnlyPolicy.Mode Mode.ModeHumanReadable)
          Mode.ModeNumeric := by decide
    exact hall b hb'
  rw [hz] at h1
  exact absurd h1 (by decide)

/-- C15, amended: for every policy whose positive class minima sum to at most
the length `L`, whose compiled range is not empty and in which every class with
a positive minimum contributes to the compiled range (its bit is set and its
table is not empty), there is a string of length `L` over the range compiled by
`GetCharRangeFromConfig` that `checkMinimumRequirements` accepts. -/
theorem consistent_minima_accepted_string_exists (d : Decls) (cfg : Config) (L : Int)
    (hL : sumMinima cfg ≤ L)
    (hrange : GetCharRangeFromConfig d cfg ≠ [])
    (hlo : cfg.MinLowerCase > 0 → classPart d cfg.Mode Mode.ModeLowerCase ≠ [])
    (hnu : cfg.MinNumeric > 0 → classPart d cfg.Mode Mode.ModeNumeric ≠ [])
    (hsp : cfg.MinSpecial > 0 → classPart d cfg.Mode Mode.ModeSpecial ≠ [])
    (hup : cfg.MinUpperCase > 0 → classPart d cfg.Mode Mode.ModeUpperCase ≠ []) :
    ∃ s : GoString, (s.length : Int) = L
      ∧ (∀ b ∈ s, b ∈ GetCharRangeFromConfig d cfg)
      ∧ checkMinimumRequirements d cfg s = true := by
  have hfill : (GetCharRangeFromConfig d cfg).headD default ∈ GetCharRangeFromConfig d cfg := by
    cases hp : GetCharRangeFromConfig d cfg with
    | nil => exact absurd hp hrange
    | cons a l => simp
  generalize hf : (GetCharRangeFromConfig d cfg).headD default = f at hfill
  generalize ha1 : (classPart d cfg.Mode Mode.ModeLowerCase).headD f = a1
  generalize ha2 : (classPart d cfg.Mode Mode.ModeNumeric).headD f = a2
  generalize ha3 : (classPart d cfg.Mode Mode.ModeSpecial).headD f = a3
  generalize ha4 : (classPart d cfg.Mode Mode.ModeUpperCase).headD f = a4
  have hsum : sumMinima cfg = max cfg.MinLowerCase 0 + max cfg.MinNumeric 0
      + max cfg.MinSpecial 0 + max cfg.MinUpperCase 0 := rfl
  refine ⟨List.replicate cfg.MinLowerCase.toNat a1 ++ List.replicate cfg.MinNumeric.toNat a2
    ++ List.replicate cfg.MinSpecial.toNat a3 ++ List.replicate cfg.MinUpperCase.toNat a4
    ++ List.replicate (L - sumMinima cfg).toNat f, ?_, ?_, ?_⟩
  · simp only [List.length_append, List.length_replicate]
    push_cast
    omega
  · intro b hb
    simp only [List.mem_append, List.mem_replicate] at hb
    rcases hb with (((⟨hk, rfl⟩ | ⟨hk, rfl⟩) | ⟨hk, rfl⟩) | ⟨hk, rfl⟩) | ⟨hk, rfl⟩
    · rw [← ha1]
      exact (classPart_head d cfg _ f (by decide) (hlo (by omega))).2
    · rw [← ha2]
      exact (classPart_head d cfg _ f (by decide) (hnu (by omega))).2
    · rw [← ha3]
      exact (classPart_head d cfg _ f (by decide) (hsp (by omega))).2
    · rw [← ha4]
      exact (classPart_head d cfg _ f (by decide) (hup (by omega))).2
    · exact hfill
  · rw [checkMinimumRequirements_iff]
    refine ⟨fun h => ?_, fun h => ?_, fun h => ?_, fun h => ?_⟩
    · have hm := (classPart_head d cfg _ f (by decide) (hlo h)).1
      rw [ha1] at hm
      refine le_trans ?_ (countRange_ge_count _ _ a1 hm)
      simp only [List.count_append, List.count_replicate_self]
      push_cast
      omega
    · have hm := (classPart_head d cfg _ f (by decide) (hnu h)).1
      rw [ha2] at hm
      refine le_trans ?_ (countRange_ge_count _ _ a2 hm)
      simp only [List.count_append, List.count_replicate_self]
      push_cast
      omega
    · have hm := (classPart_head d cfg _ f (by decide) (hsp h)).1
      rw [ha3] at hm
      refine le_trans ?_ (countRange_ge_count _ _ a3 hm)
      simp only [List.count_append, List.count_replicate_self]
      push_cast
      omega
    · have hm := (classPart_head d cfg _ f (by decide) (hup h)).1
      rw [ha4] at hm
      refine le_trans ?_ (countRange_ge_count _ _ a4 hm)
      simp only [List.count_append, List.count_replicate_self]
      push_cast
      omega

theorem candidates_eq_groups (w : Nat) : candidates w = groups letterIdxMax w := by
  simp [candidates, groups, letterIdxMax, letterIdxBits, List.range_succ, ← Nat.shiftRight_add]

theorem pick_zero (cr : GoString) (cs : List Nat) : pick cr 0 cs = [] := by
  simp [pick]

theorem pick_cons_lt (cr : GoString) (k c : Nat) (cs : List Nat) (h : c < cr.length) :
    pick cr (k + 1) (c :: cs) = cr[c] :: pick cr k cs := by
  simp [pick, List.filter_cons, h]

theorem pick_cons_ge (cr : GoString) (k c : Nat) (cs : List Nat) (h : ¬ c < cr.length) :
    pick cr k (c :: cs) = pick cr k cs := by
  simp [pick, List.filter_cons, h]

theorem pick_length_le (cr : GoString) (k : Nat) (cs : List Nat) :
    (pick cr k cs).length ≤ cs.length := by
  unfold pick
  refine le_trans (List.length_filterMap_le _ _) ?_
  rw [List.length_take]
  exact le_trans (min_le_right _ _) (List.length_filter_le _ _)

theorem groups_length (n char : Nat) : (groups n char).length = n := by
  induction n generalizing char with
  | zero => rfl
  | succ n ih => simp [groups, ih]

theorem wordsRead_length (e : Entropy) (pos k : Nat) : (wordsRead e pos k).length = k := by
  induction k generalizing pos with
  | zero => rfl
  | succ n ih => simp [wordsRead, ih]

theorem randRead8_some (e : Entropy) (pos : Nat) (randPool : List Nat) (pos1 : Nat)
    (h : randRead8 e pos = (some randPool, pos1)) :
    pos1 = pos + 1 ∧ bigEndianUint64 randPool = wordAt e pos := by
  have hw : wordAt e pos = bigEndianUint64 randPool := by
    unfold wordAt
    rw [h]
  refine ⟨?_, hw.symm⟩
  unfold randRead8 at h
  cases he : e pos with
  | fail =>
    rw [he] at h
    simp at h
  | data n =>
    rw [he] at h
    simp only [Prod.mk.injEq] at h
    exact h.2.symm

/-- After the head of the loop body the candidates still to come are the same,
and the window holds at least one. -/
theorem refill_stream (e : Entropy) (pos char rest char1 rest1 pos1 : Nat)
    (h : refill e pos char rest = (Except.ok (char1, rest1), pos1)) (hrest : rest ≤ letterIdxMax) :
    0 < rest1 ∧ rest1 ≤ letterIdxMax ∧ pos ≤ pos1
      ∧ (rest = 0 → pos1 = pos + 1 ∧ rest1 = letterIdxMax)
      ∧ (0 < rest → pos1 = pos ∧ rest1 = rest ∧ char1 = char)
      ∧ ∀ k, groups rest char ++ ((wordsRead e pos (pos1 - pos + k)).map (groups letterIdxMax)).flatten
          = groups rest1 char1 ++ ((wordsRead e pos1 k).map (groups letterIdxMax)).flatten := by
  unfold refill at h
  split at h
  · rename_i h0
    subst h0
    split at h
    · simp at h
    · rename_i randPool pos2 hr
      obtain ⟨hp, hw⟩ := randRead8_some e pos _ _ hr
      simp only [Prod.mk.injEq, Except.ok.injEq] at h
      obtain ⟨⟨rfl, rfl⟩, rfl⟩ := h
      subst hp
      refine ⟨by decide, le_refl _, by omega, fun _ => ⟨rfl, rfl⟩,
        fun h => absurd h (by omega), fun k => ?_⟩
      have : pos + 1 - pos + k = k + 1 := by omega
      rw [this, hw]
      simp [wordsRead, groups]
  · rename_i h0
    simp only [Prod.mk.injEq, Except.ok.injEq] at h
    obtain ⟨⟨rfl, rfl⟩, rfl⟩ := h
    refine ⟨by omega, hrest, le_refl _, fun h => absurd h h0, fun _ => ⟨rfl, rfl, rfl⟩,
      fun k => ?_⟩
    simp

/-- The loop against the reference: a run that ends without error has appended
the characters picked, for the `idx + 1` positions still to fill, from the
candidates left in the window followed by those of the words read later. -/
theorem sampleLoop_eq_pick (e : Entropy) (charRange : GoString) :
    ∀ (fuel pos : Nat) (idx : Int) (char rest : Nat) (acc s : GoString) (pos' : Nat),
      -1 ≤ idx → rest ≤ letterIdxMax →
      sampleLoop e charRange fuel pos idx char rest acc = some ((s, none), pos') →
      pos ≤ pos' ∧ s = acc ++ pick charRange (idx + 1).toNat
        (groups rest char
          ++ ((wordsRead e pos (pos' - pos)).map (groups letterIdxMax)).flatten) := by
  intro fuel
  induction fuel with
  | zero =>
    intro pos idx char rest acc s pos' _ _ h
    simp [sampleLoop] at h
  | succ n ih =>
    intro pos idx char rest acc s pos' hidx hrest h
    rw [sampleLoop] at h
    split at h
    · rename_i hneg
      simp only [Option.some.injEq, Prod.mk.injEq, and_true] at h
      obtain ⟨rfl, rfl⟩ := h
      have : (idx + 1).toNat = 0 := by omega
      rw [this, pick_zero]
      simp
    · rename_i hneg
      split at h
      · simp at h
      · rename_i char1 rest1 pos1 hre
        obtain ⟨hpos, hle, hmono, -, -, hstream⟩ := refill_stream e pos char rest _ _ _ hre hrest
        have hg : groups rest1 char1
            = (char1 &&& letterIdxMask) :: groups (rest1 - 1) (char1 >>> letterIdxBits) := by
          obtain ⟨r, rfl⟩ : ∃ r, rest1 = r + 1 := ⟨rest1 - 1, by omega⟩
          simp [groups]
        split at h
        · rename_i hlt
          obtain ⟨hp, hs⟩ := ih _ _ _ _ _ _ _ (by omega) (by omega) h
          refine ⟨by omega, ?_⟩
          have hk := hstream (pos' - pos1)
          have he : pos1 - pos + (pos' - pos1) = pos' - pos := by omega
          rw [he] at hk
          rw [hk, hg, hs]
          have hi : (idx + 1).toNat = (idx - 1 + 1).toNat + 1 := by omega
          rw [hi, List.cons_append, pick_cons_lt _ _ _ _ hlt]
          simp
        · rename_i hlt
          obtain ⟨hp, hs⟩ := ih _ _ _ _ _ _ _ hidx (by omega) h
          refine ⟨by omega, ?_⟩
          have hk := hstream (pos' - pos1)
          have he : pos1 - pos + (pos' - pos1) = pos' - pos := by omega
          rw [he] at hk
          rw [hk, hg, hs, List.cons_append, pick_cons_ge _ _ _ _ hlt]

theorem noFailure_data (e : Entropy) (pos k : Nat) (h : noFailure e pos (pos + k)) (hk : 0 < k) :
    ∃ n, e pos = Reply.data n := by
  cases he : e pos with
  | fail => exact absurd he (h pos (le_refl _) (by omega))
  | data n => exact ⟨n, rfl⟩

theorem refill_data (e : Entropy) (pos char rest : Nat) (h : rest = 0 → ∃ n, e pos = Reply.data n) :
    ∃ char1 rest1 pos1, refill e pos char rest = (Except.ok (char1, rest1), pos1) := by
  unfold refill
  split
  · rename_i h0
    obtain ⟨n, hn⟩ := h h0
    unfold randRead8
    rw [hn]
    exact ⟨_, _, _, rfl⟩
  · exact ⟨_, _, _, rfl⟩

/-- Termination of the loop: when no read of the next `k` fails and the
candidates left in the window and in the next `k` words hold at least `idx + 1`
accepted ones, a budget above their number ends the loop without error within
`k` reads. -/
theorem sampleLoop_terminates (e : Entropy) (charRange : GoString) :
    ∀ (fuel pos : Nat) (idx : Int) (char rest : Nat) (acc : GoString) (k : Nat),
      -1 ≤ idx → rest ≤ letterIdxMax → noFailure e pos (pos + k) →
      (idx + 1).toNat ≤ (accepted charRange (groups rest char
          ++ ((wordsRead e pos k).map (groups letterIdxMax)).flatten)).length →
      rest + letterIdxMax * k < fuel →
      ∃ s pos', sampleLoop e charRange fuel pos idx char rest acc = some ((s, none), pos')
        ∧ pos' ≤ pos + k := by
  intro fuel
  induction fuel with
  | zero =>
    intro pos idx char rest acc k _ _ _ _ hf
    omega
  | succ n ih =>
    intro pos idx char rest acc k hidx hrest hno hacc hf
    rw [sampleLoop]
    split
    · exact ⟨_, _, rfl, by omega⟩
    · rename_i hneg
      have hk : rest = 0 → 0 < k := by
        intro h0
        subst h0
        cases k with
        | zero =>
          simp [groups, wordsRead, accepted] at hacc
          omega
        | succ k => omega
      obtain ⟨char1, rest1, pos1, hre⟩ := refill_data e pos char rest
        (fun h0 => noFailure_data e pos k hno (hk h0))
      obtain ⟨hpos, hle, hmono, h0, h1, hstream⟩ := refill_stream e pos char rest _ _ _ hre hrest
      rw [hre]
      simp only
      have hg : groups rest1 char1
          = (char1 &&& letterIdxMask) :: groups (rest1 - 1) (char1 >>> letterIdxBits) := by
        obtain ⟨r, rfl⟩ : ∃ r, rest1 = r + 1 := ⟨rest1 - 1, by omega⟩
        simp [groups]
      -- the reads still allowed after the head of the body
      have hk1 : ∃ k1, pos1 + k1 = pos + k ∧ rest1 - 1 + letterIdxMax * k1 < n
          ∧ pos1 - pos + k1 = k := by
        by_cases hr0 : rest = 0
        · obtain ⟨hp, hr⟩ := h0 hr0
          have := hk hr0
          refine ⟨k - 1, by omega, ?_, by omega⟩
          have hm : letterIdxMax * k = letterIdxMax * (k - 1) + letterIdxMax := by
            obtain ⟨j, rfl⟩ : ∃ j, k = j + 1 := ⟨k - 1, by omega⟩
            simp [Nat.mul_succ]
          omega
        · obtain ⟨hp, hr, -⟩ := h1 (by omega)
          exact ⟨k, by omega, by omega, by omega⟩
      obtain ⟨k1, hk1a, hk1b, hk1c⟩ := hk1
      have hs := hstream k1
      rw [hk1c, hg] at hs
      rw [hs] at hacc
      have hno1 : noFailure e pos1 (pos1 + k1) := by
        intro p hp hq
        exact hno p (by omega) (by omega)
      split
      · rename_i hlt
        have hacc1 : (idx - 1 + 1).toNat ≤ (accepted charRange (groups (rest1 - 1)
            (char1 >>> letterIdxBits)
            ++ ((wordsRead e pos1 k1).map (groups letterIdxMax)).flatten)).length := by
          simp only [accepted, List.cons_append, List.filter_cons, hlt, decide_True, if_true,
            List.length_cons] at hacc ⊢
          omega
        obtain ⟨s, pos', hs', hp'⟩ := ih pos1 (idx - 1) _ (rest1 - 1) _ k1 (by omega) (by omega)
          hno1 hacc1 hk1b
        exact ⟨s, pos', hs', by omega⟩
      · rename_i hlt
        have hacc1 : (idx + 1).toNat ≤ (accepted charRange (groups (rest1 - 1)
            (char1 >>> letterIdxBits)
            ++ ((wordsRead e pos1 k1).map (groups letterIdxMax)).flatten)).length := by
          simp only [accepted, List.cons_append, List.filter_cons, hlt, decide_False,
            Bool.false_eq_true, if_false] at hacc ⊢
          exact hacc
        obtain ⟨s, pos', hs', hp'⟩ := ih pos1 idx _ (rest1 - 1) _ k1 hidx (by omega)
          hno1 hacc1 hk1b
        exact ⟨s, pos', hs', by omega⟩

theorem map_candidates_eq (ws : List Nat) : ws.map candidates = ws.map (groups letterIdxMax) := by
  exact List.map_congr_left (fun w _ => candidates_eq_groups w)

theorem stream_length (e : Entropy) (pos k : Nat) :
    ((wordsRead e pos k).map (groups letterIdxMax)).flatten.length = letterIdxMax * k := by
  induction k generalizing pos with
  | zero => rfl
  | succ n ih =>
    simp only [wordsRead, List.map_cons, List.flatten_cons, List.length_append, groups_length, ih]
    rw [Nat.mul_succ]
    omega

theorem groups_lt (n char : Nat) : ∀ c ∈ groups n char, c < 128 := by
  induction n generalizing char with
  | zero => intro c hc; simp [groups] at hc
  | succ n ih =>
    intro c hc
    simp only [groups, List.mem_cons] at hc
    rcases hc with rfl | hc
    · have : char &&& letterIdxMask ≤ letterIdxMask := Nat.and_le_right
      have h127 : letterIdxMask = 127 := by decide
      omega
    · exact ih _ c hc

theorem stream_lt (e : Entropy) (pos k : Nat) :
    ∀ c ∈ ((wordsRead e pos k).map (groups letterIdxMax)).flatten, c < 128 := by
  induction k generalizing pos with
  | zero => intro c hc; simp [wordsRead] at hc
  | succ n ih =>
    intro c hc
    simp only [wordsRead, List.map_cons, List.flatten_cons, List.mem_append] at hc
    rcases hc with hc | hc
    · exact groups_lt _ _ c hc
    · exact ih _ c hc

/-- The sampler against the reference: a successful run read at least one word
and returns the reference sample over the words it read. -/
theorem RandomStringFromCharRange_eq_pick (e : Entropy) (fuel pos : Nat) (length : Int)
    (charRange s : GoString) (pos' : Nat)
    (h : RandomStringFromCharRange e fuel pos length charRange = some ((s, none), pos')) :
    pos < pos'
      ∧ s = referenceSample charRange length.toNat (wordsRead e pos (pos' - pos)) := by
  unfold RandomStringFromCharRange at h
  split at h
  · simp at h
  · split at h
    · simp at h
    · split at h
      · simp at h
      · rename_i randPool pos1 hr
        obtain ⟨hp, hw⟩ := randRead8_some e pos _ _ hr
        subst hp
        obtain ⟨hle, hs⟩ := sampleLoop_eq_pick e charRange _ _ _ _ _ _ _ _ (by omega)
          (le_refl _) h
        refine ⟨by omega, ?_⟩
        obtain ⟨j, hj⟩ : ∃ j, pos' - pos = j + 1 := ⟨pos' - pos - 1, by omega⟩
        have hj' : pos' - (pos + 1) = j := by omega
        rw [hs, hj, hj', hw]
        unfold referenceSample
        rw [map_candidates_eq]
        simp [wordsRead]

/-- Termination of the sampler: when no read of the next `k >= 1` fails and
their words hold at least `length` accepted candidates, a budget above `9 k`
gives a result without error within `k` reads. -/
theorem RandomStringFromCharRange_terminates (e : Entropy) (fuel pos : Nat) (length : Int)
    (charRange : GoString) (k : Nat) (hlen : 1 ≤ length) (hrange : charRange ≠ [])
    (hk : 0 < k) (hno : noFailure e pos (pos + k))
    (hacc : length.toNat
      ≤ (accepted charRange ((wordsRead e pos k).map candidates).flatten).length)
    (hf : letterIdxMax * k < fuel) :
    ∃ s pos', RandomStringFromCharRange e fuel pos length charRange = some ((s, none), pos')
      ∧ pos' ≤ pos + k := by
  unfold RandomStringFromCharRange
  have h1 : ¬ length < 1 := by omega
  have h2 : ¬ charRange.length < 1 := by
    cases charRange with
    | nil => exact absurd rfl hrange
    | cons a l => simp
  rw [if_neg h1, if_neg h2]
  obtain ⟨n, hn⟩ := noFailure_data e pos k hno hk
  obtain ⟨j, rfl⟩ : ∃ j, k = j + 1 := ⟨k - 1, by omega⟩
  have hr : randRead8 e pos = (some ((List.range 8).map (fun k => n / 256 ^ (7 - k) % 256)),
      pos + 1) := by
    unfold randRead8
    rw [hn]
  obtain ⟨-, hw⟩ := randRead8_some e pos _ _ hr
  rw [hr]
  simp only
  rw [hw]
  rw [map_candidates_eq] at hacc
  simp only [wordsRead, List.map_cons, List.flatten_cons] at hacc
  have hno1 : noFailure e (pos + 1) (pos + 1 + j) := by
    intro p hp hq
    exact hno p (by omega) (by omega)
  have hm : letterIdxMax * (j + 1) = letterIdxMax + letterIdxMax * j := by
    rw [Nat.mul_succ]
    omega
  obtain ⟨s, pos', hs, hp⟩ := sampleLoop_terminates e charRange fuel (pos + 1) (length - 1)
    (wordAt e pos) letterIdxMax [] j (by omega) (le_refl _) hno1
    (by rw [show length - 1 + 1 = length by omega]; exact hacc) (by omega)
  exact ⟨s, pos', hs, by omega⟩

/-- With a range of at least 128 bytes the loop returns on every entropy
stream once the budget exceeds the number of positions to fill. -/
theorem sampleLoop_returns (e : Entropy) (charRange : GoString) (hN : 128 ≤ charRange.length) :
    ∀ (fuel pos : Nat) (idx : Int) (char rest : Nat) (acc : GoString),
      (idx + 1).toNat < fuel →
      ∃ r, sampleLoop e charRange fuel pos idx char rest acc = some r := by
  intro fuel
  induction fuel with
  | zero =>
    intro pos idx char rest acc hf
    omega
  | succ n ih =>
    intro pos idx char rest acc hf
    rw [sampleLoop]
    split
    · exact ⟨_, rfl⟩
    · split
      · exact ⟨_, rfl⟩
      · rename_i char1 rest1 pos1 hre
        have hlt : char1 &&& letterIdxMask < charRange.length := by
          have : char1 &&& letterIdxMask ≤ letterIdxMask := Nat.and_le_right
          have h127 : letterIdxMask = 127 := by decide
          omega
        rw [dif_pos hlt]
        exact ih _ _ _ _ _ (by omega)

theorem land_mask (x : Nat) : x &&& letterIdxMask = x % 128 :=
  Nat.and_pow_two_sub_one_eq_mod x 7

/-- The candidates of a window written with division: group `j` is
`w / 128 ^ j % 128`. -/
theorem candidates_eq_div (w : Nat) :
    candidates w = [w % 128, w / 128 % 128, w / 128 ^ 2 % 128, w / 128 ^ 3 % 128,
      w / 128 ^ 4 % 128, w / 128 ^ 5 % 128, w / 128 ^ 6 % 128, w / 128 ^ 7 % 128,
      w / 128 ^ 8 % 128] := by
  simp [candidates, letterIdxMax, letterIdxBits, List.range_succ, land_mask,
    Nat.shiftRight_eq_div_pow]

/-- Bit 63 of a window is not used: the candidates depend on the low 63 bits. -/
theorem candidates_mod (w : Nat) : candidates (w % 2 ^ 63) = candidates w := by
  rw [candidates_eq_div, candidates_eq_div]
  simp only [List.cons.injEq, and_true]
  norm_num
  omega

theorem list_nine (t : List Nat) (h : t.length = 9) :
    ∃ a b c d e f g h i, t = [a, b, c, d, e, f, g, h, i] := by
  match t, h with
  | [a, b, c, d, e, f, g, h, i], _ => exact ⟨a, b, c, d, e, f, g, h, i, rfl⟩

/-- Every 9-tuple of indices below 128 is the candidate tuple of exactly two
64-bit windows. -/
theorem candidates_fiber (t : List Nat) (hl : t.length = 9) (ht : ∀ x ∈ t, x < 128) :
    ((Finset.range (2 ^ 64)).filter (fun w => candidates w = t)).card = 2 := by
  obtain ⟨a, b, c, d, e, f, g, h, i, rfl⟩ := list_nine t hl
  have ha := ht a (by simp)
  have hb := ht b (by simp)
  have hc := ht c (by simp)
  have hd := ht d (by simp)
  have he := ht e (by simp)
  have hf := ht f (by simp)
  have hg := ht g (by simp)
  have hh := ht h (by simp)
  have hi := ht i (by simp)
  have hset : (Finset.range (2 ^ 64)).filter (fun w => candidates w = [a, b, c, d, e, f, g, h, i])
      = {a + 128 * b + 128 ^ 2 * c + 128 ^ 3 * d + 128 ^ 4 * e + 128 ^ 5 * f + 128 ^ 6 * g
          + 128 ^ 7 * h + 128 ^ 8 * i,
         a + 128 * b + 128 ^ 2 * c + 128 ^ 3 * d + 128 ^ 4 * e + 128 ^ 5 * f + 128 ^ 6 * g
          + 128 ^ 7 * h + 128 ^ 8 * i + 2 ^ 63} := by
    ext w
    simp only [Finset.mem_filter, Finset.mem_range, Finset.mem_insert, Finset.mem_singleton,
      candidates_eq_div, List.cons.injEq, and_true]
    norm_num
    omega
  rw [hset, Finset.card_pair]
  omega

/-- Each index below 128 is the `j`-th candidate of the same number of 64-bit
windows, `2 ^ 57`. -/
theorem candidates_marginal (j : Nat) (hj : j < 9) (i : Nat) (hi : i < 128) :
    ((Finset.range (2 ^ 64)).filter (fun w => (candidates w)[j]? = some i)).card = 2 ^ 57 := by
  have hset : (Finset.range (2 ^ 64)).filter (fun w => (candidates w)[j]? = some i)
      = (Finset.range (2 ^ 57)).image
          (fun u => u % 128 ^ j + 128 ^ j * i + 128 ^ (j + 1) * (u / 128 ^ j)) := by
    ext w
    simp only [Finset.mem_filter, Finset.mem_range, Finset.mem_image, candidates_eq_div]
    constructor
    · rintro ⟨hw, hc⟩
      refine ⟨w % 128 ^ j + 128 ^ j * (w / 128 ^ (j + 1)), ?_, ?_⟩ <;>
        interval_cases j <;> simp at hc <;> norm_num <;> omega
    · rintro ⟨u, hu, rfl⟩
      interval_cases j <;> simp <;> omega
  rw [hset, Finset.card_image_of_injOn, Finset.card_range]
  intro u1 hu1 u2 hu2 h
  simp only [Finset.coe_range, Set.mem_Iio] at hu1 hu2
  simp only at h
  interval_cases j <;> norm_num at h <;> omega

theorem accepted_wide (charRange : GoString) (hN : 128 ≤ charRange.length) (e : Entropy)
    (pos k : Nat) :
    (accepted charRange ((wordsRead e pos k).map candidates).flatten).length
      = letterIdxMax * k := by
  rw [map_candidates_eq]
  unfold accepted
  rw [List.filter_eq_self.2, stream_length]
  intro c hc
  have := stream_lt e pos k c hc
  simp only [decide_eq_true_eq]
  omega

theorem RandomStringFromCharRange_returns (e : Entropy) (fuel pos : Nat) (length : Int)
    (charRange : GoString) (hN : 128 ≤ charRange.length) (hf : length.toNat < fuel) :
    ∃ r, RandomStringFromCharRange e fuel pos length charRange = some r := by
  unfold RandomStringFromCharRange
  split
  · exact ⟨_, rfl⟩
  · split
    · exact ⟨_, rfl⟩
    · split
      · exact ⟨_, rfl⟩
      · exact sampleLoop_returns e charRange hN _ _ _ _ _ _ (by omega)

/-- A successful run of the sampler with `L` positions read at least `L / 9`
words, rounded up. -/
theorem RandomStringFromCharRange_reads_ge (e : Entropy) (fuel pos : Nat) (length : Int)
    (charRange s : GoString) (pos' : Nat)
    (h : RandomStringFromCharRange e fuel pos length charRange = some ((s, none), pos')) :
    (length.toNat + 8) / 9 ≤ pos' - pos := by
  obtain ⟨-, hs⟩ := RandomStringFromCharRange_eq_pick e fuel pos length charRange s pos' h
  obtain ⟨hl1, -, hl, -⟩ := RandomStringFromCharRange_ok e fuel pos length charRange s pos' h
  have hle : s.length ≤ letterIdxMax * (pos' - pos) := by
    rw [hs]
    unfold referenceSample
    rw [map_candidates_eq]
    exact le_trans (pick_length_le _ _ _) (le_of_eq (stream_length e pos _))
  have h9 : letterIdxMax = 9 := by decide
  rw [h9] at hle
  omega

/-- C16: the bit-packed loop of `RandomStringFromCharRange` equals the plain
reference definition.  For every `L >= 1` and non-empty `charRange`, a result
without error is `charRange[i]` for the first `L` values `i` below the length
of `charRange` among the candidates of the words read, taken word by word in
the order read, nine 7-bit groups per word (larger candidates are skipped but
consumed); when no read among the next `k` fails and their words hold `L`
accepted candidates, a budget above `9 k` gives that result; and bit 63 of a
word is never used. -/
theorem RandomStringFromCharRange_refines_reference (e : Entropy) (fuel pos : Nat)
    (length : Int) (charRange : GoString) (hlen : 1 ≤ length) (hrange : charRange ≠ []) :
    (∀ s pos', RandomStringFromCharRange e fuel pos length charRange = some ((s, none), pos') →
        pos < pos'
          ∧ s = referenceSample charRange length.toNat (wordsRead e pos (pos' - pos)))
      ∧ (∀ k, 0 < k → noFailure e pos (pos + k) →
          length.toNat
            ≤ (accepted charRange ((wordsRead e pos k).map candidates).flatten).length →
          letterIdxMax * k < fuel →
          ∃ pos', pos' ≤ pos + k
            ∧ RandomStringFromCharRange e fuel pos length charRange
              = some ((referenceSample charRange length.toNat (wordsRead e pos (pos' - pos)),
                  none), pos'))
      ∧ (∀ (L : Nat) (words : List Nat),
          referenceSample charRange L (words.map (fun w => w % 2 ^ 63))
            = referenceSample charRange L words) := by
  refine ⟨fun s pos' h => RandomStringFromCharRange_eq_pick e fuel pos length charRange s pos' h,
    fun k hk hno hacc hf => ?_, fun L words => ?_⟩
  · obtain ⟨s, pos', hs, hp⟩ := RandomStringFromCharRange_terminates e fuel pos length charRange
      k hlen hrange hk hno hacc hf
    obtain ⟨-, hr⟩ := RandomStringFromCharRange_eq_pick e fuel pos length charRange s pos' hs
    exact ⟨pos', hp, by rw [← hr]; exact hs⟩
  · unfold referenceSample
    rw [List.map_map]
    congr 2
    exact List.map_congr_left (fun w _ => candidates_mod w)

/-- C17: one 8-byte read serves at most 9 characters.  For every `L >= 1` and
non-empty `charRange`, a successful `RandomStringFromCharRange(L, charRange)`
performs at least `ceil(L / 9)` reads; when `charRange` has at least 128 bytes
it returns on every entropy stream (budget above `L + 8`), a result without
error comes after exactly `ceil(L / 9)` reads, and the result is without error
when none of these reads fails. -/
theorem RandomStringFromCharRange_reads (e : Entropy) (fuel pos : Nat) (length : Int)
    (charRange : GoString) (hlen : 1 ≤ length) (hrange : charRange ≠ []) :
    (∀ s pos', RandomStringFromCharRange e fuel pos length charRange = some ((s, none), pos') →
        (length.toNat + 8) / 9 ≤ pos' - pos)
      ∧ (128 ≤ charRange.length → length + 8 < fuel →
          ∃ r, RandomStringFromCharRange e fuel pos length charRange = some r
            ∧ (r.1.2 = none → r.2 = pos + (length.toNat + 8) / 9)
            ∧ (noFailure e pos (pos + (length.toNat + 8) / 9) → r.1.2 = none)) := by
  refine ⟨fun s pos' h => RandomStringFromCharRange_reads_ge e fuel pos length charRange s pos' h,
    fun hN hf => ?_⟩
  obtain ⟨r, hr⟩ := RandomStringFromCharRange_returns e fuel pos length charRange hN (by omega)
  have h9 : letterIdxMax = 9 := by decide
  have hterm : noFailure e pos (pos + (length.toNat + 8) / 9) →
      ∃ s pos', RandomStringFromCharRange e fuel pos length charRange = some ((s, none), pos')
        ∧ pos' ≤ pos + (length.toNat + 8) / 9 := by
    intro hno
    refine RandomStringFromCharRange_terminates e fuel pos length charRange _ hlen hrange
      (by omega) hno ?_ (by rw [h9]; omega)
    rw [accepted_wide charRange hN, h9]
    omega
  refine ⟨r, hr, fun hnone => ?_, fun hno => ?_⟩
  · obtain ⟨⟨s, err⟩, pos'⟩ := r
    simp only at hnone
    subst hnone
    have hge := RandomStringFromCharRange_reads_ge e fuel pos length charRange s pos' hr
    obtain ⟨hlt, -⟩ := RandomStringFromCharRange_eq_pick e fuel pos length charRange s pos' hr
    by_cases hle : pos' ≤ pos + (length.toNat + 8) / 9
    · simp only
      omega
    · have hno := RandomStringFromCharRange_noFailure e fuel pos length charRange s pos' hr
      have hno' : noFailure e pos (pos + (length.toNat + 8) / 9) :=
        fun p hp hq => hno p hp (by omega)
      obtain ⟨s2, pos2, hs2, hp2⟩ := hterm hno'
      rw [hr] at hs2
      simp only [Option.some.injEq, Prod.mk.injEq] at hs2
      omega
  · obtain ⟨s2, pos2, hs2, -⟩ := hterm hno
    rw [hr] at hs2
    simp only [Option.some.injEq] at hs2
    rw [hs2]

theorem GetPasswordLength_ge_one (cfg : Config) (e : Entropy) (pos : Nat) (v : Int)
    (pos1 : Nat) (h : GetPasswordLength cfg e pos = ((v, none), pos1)) : 1 ≤ v := by
  unfold GetPasswordLength at h
  split at h
  · simp only [Prod.mk.injEq, and_true] at h
    omega
  · simp only at h
    split at h
    · simp at h
    · split at h <;>
        · simp only [Prod.mk.injEq, and_true] at h
          omega

/-- C18: for every policy and every entropy draw, whenever `GetPasswordLength`
returns without error its result is `>= 1`; with `minLength > maxLength` the
result is that of the policy with `maxLength` set to `minLength`; and a
computed length `<= 0` is replaced by 1. -/
theorem GetPasswordLength_at_least_one (cfg : Config) (e : Entropy) (pos : Nat) :
    (∀ v pos1, GetPasswordLength cfg e pos = ((v, none), pos1) → 1 ≤ v)
      ∧ (cfg.FixedLength ≤ 0 → cfg.MinLength > cfg.MaxLength →
          GetPasswordLength cfg e pos
            = GetPasswordLength { cfg with MaxLength := cfg.MinLength } e pos)
      ∧ (cfg.FixedLength ≤ 0 → ∀ randNum pos1,
          RandNum e pos (wrap64 (wrap64
              ((if cfg.MinLength > cfg.MaxLength then cfg.MinLength else cfg.MaxLength)
                - cfg.MinLength) + 1)) = ((randNum, none), pos1) →
          wrap64 (cfg.MinLength + randNum) ≤ 0 →
          GetPasswordLength cfg e pos = ((1, none), pos1)) := by
  refine ⟨fun v pos1 h => GetPasswordLength_ge_one cfg e pos v pos1 h, fun hf hgt => ?_,
    fun hf randNum pos1 hr hle => ?_⟩
  · simp [GetPasswordLength, hgt]
  · unfold GetPasswordLength
    rw [if_neg (by omega)]
    simp only
    rw [hr]
    simp only
    rw [if_pos hle]

/-- C19: for every policy with algorithm Random whose mask has no class bit
set, the compiled range is empty and `Generate` returns (whenever length
resolution succeeds, with a budget of at least one iteration) the empty string
together with `ErrInvalidCharRange`, right after the length resolution: no
candidate is produced or validated. -/
theorem Generate_empty_range (d : Decls) (cfg : Config) (e : Entropy) (fuel pos : Nat)
    (halg : cfg.Algorithm = Algorithm.AlgoRandom)
    (hlo : d.MaskHasMode cfg.Mode Mode.ModeLowerCase = false)
    (hnu : d.MaskHasMode cfg.Mode Mode.ModeNumeric = false)
    (hsp : d.MaskHasMode cfg.Mode Mode.ModeSpecial = false)
    (hup : d.MaskHasMode cfg.Mode Mode.ModeUpperCase = false)
    (hlen : (GetPasswordLength cfg e pos).1.2 = none) (hf : 0 < fuel) :
    GetCharRangeFromConfig d cfg = []
      ∧ Generate d cfg e fuel pos
        = some (([], some Error.ErrInvalidCharRange), (GetPasswordLength cfg e pos).2) := by
  have hrange : GetCharRangeFromConfig d cfg = [] := by
    unfold GetCharRangeFromConfig
    rw [hlo, hnu, hsp, hup]
    rfl
  refine ⟨hrange, ?_⟩
  obtain ⟨n, rfl⟩ : ∃ n, fuel = n + 1 := ⟨fuel - 1, by omega⟩
  unfold Generate
  rw [halg]
  simp only
  unfold generateRandom
  cases hg : GetPasswordLength cfg e pos with
  | mk res pos1 =>
    obtain ⟨v, err⟩ := res
    rw [hg] at hlen
    simp only at hlen
    subst hlen
    have hv := GetPasswordLength_ge_one cfg e pos v pos1 hg
    simp only
    rw [hrange, generateRandomLoop]
    unfold RandomStringFromCharRange
    rw [if_neg (by omega)]
    simp

/-- C20: the `ExcludeChars` field does not influence generation: a policy and
the same policy with any other `ExcludeChars` compile to the same range and,
on the same entropy stream, `Generate` returns the same result; so a character
listed in `ExcludeChars` is not removed from the compiled range. -/
theorem ExcludeChars_ignored (d : Decls) (cfg : Config) (x : GoString) (e : Entropy)
    (fuel pos : Nat) :
    GetCharRangeFromConfig d { cfg with ExcludeChars := x } = GetCharRangeFromConfig d cfg
      ∧ Generate d { cfg with ExcludeChars := x } e fuel pos = Generate d cfg e fuel pos
      ∧ (∀ c ∈ x, c ∈ GetCharRangeFromConfig d cfg →
          c ∈ GetCharRangeFromConfig d { cfg with ExcludeChars := x }) := by
  have hloop : ∀ (length : Int) (charRange : GoString) (n p : Nat),
      generateRandomLoop d { cfg with ExcludeChars := x } e fuel length charRange n p
        = generateRandomLoop d cfg e fuel length charRange n p := by
    intro length charRange n
    induction n with
    | zero => intro p; rfl
    | succ n ih =>
      intro p
      rw [generateRandomLoop, generateRandomLoop]
      split
      · rfl
      · rfl
      · have hc : ∀ password, checkMinimumRequirements d { cfg with ExcludeChars := x } password
            = checkMinimumRequirements d cfg password := fun _ => rfl
        rw [hc, ih]
  have hgen : generateRandom d { cfg with ExcludeChars := x } e fuel pos
      = generateRandom d cfg e fuel pos := by
    unfold generateRandom
    have hg : GetPasswordLength { cfg with ExcludeChars := x } e pos
        = GetPasswordLength cfg e pos := rfl
    have hr : GetCharRangeFromConfig d { cfg with ExcludeChars := x }
        = GetCharRangeFromConfig d cfg := rfl
    rw [hg, hr]
    cases GetPasswordLength cfg e pos with
    | mk res p1 =>
      obtain ⟨v, err⟩ := res
      cases err with
      | none => exact hloop _ _ _ _
      | some err => rfl
  refine ⟨rfl, ?_, fun c _ hc => hc⟩
  unfold Generate
  rw [hgen]

/-- Witness of C11: the example policy on `n0au6`, and the policy without
minima on `??`. -/
theorem checkMinimumRequirements_spec_witness :
    (checkMinimumRequirements apgDecls examplePolicy ['n', '0', 'a', 'u', '6'] = true ↔
      (examplePolicy.MinLowerCase > 0 → examplePolicy.MinLowerCase ≤
          occurrences (classTable apgDecls
            (apgDecls.MaskHasMode examplePolicy.Mode Mode.ModeHumanReadable)
            Mode.ModeLowerCase) ['n', '0', 'a', 'u', '6'])
      ∧ (examplePolicy.MinNumeric > 0 → examplePolicy.MinNumeric ≤
          occurrences (classTable apgDecls
            (apgDecls.MaskHasMode examplePolicy.Mode Mode.ModeHumanReadable)
            Mode.ModeNumeric) ['n', '0', 'a', 'u', '6'])
      ∧ (examplePolicy.MinSpecial > 0 → examplePolicy.MinSpecial ≤
          occurrences (classTable apgDecls
            (apgDecls.MaskHasMode examplePolicy.Mode Mode.ModeHumanReadable)
            Mode.ModeSpecial) ['n', '0', 'a', 'u', '6'])
      ∧ (examplePolicy.MinUpperCase > 0 → examplePolicy.MinUpperCase ≤
          occurrences (classTable apgDecls
            (apgDecls.MaskHasMode examplePolicy.Mode Mode.ModeHumanReadable)
            Mode.ModeUpperCase) ['n', '0', 'a', 'u', '6']))
      ∧ checkMinimumRequirements apgDecls noMinimaPolicy ['?', '?'] = true :=
  ⟨(checkMinimumRequirements_spec apgDecls examplePolicy ['n', '0', 'a', 'u', '6']
      (by decide) (by decide) (by decide) (by decide)).1,
   (checkMinimumRequirements_spec apgDecls noMinimaPolicy ['?', '?']
      (by decide) (by decide) (by decide) (by decide)).2
      (by decide) (by decide) (by decide) (by decide)⟩

/-- C12: with only the numeric bit and the human-readable bit set in the mask,
`GetCharRangeFromConfig` (on the tables as the spec gives them) returns a range
whose set of characters is exactly `2 3 4 5 6 7 8 9`: it contains each of these
eight digits and neither `0` nor `1` nor any non-digit. -/
theorem numeric_human_range (cfg : Config)
    (hnu : apgDecls.MaskHasMode cfg.Mode Mode.ModeNumeric = true)
    (hhu : apgDecls.MaskHasMode cfg.Mode Mode.ModeHumanReadable = true)
    (hlo : apgDecls.MaskHasMode cfg.Mode Mode.ModeLowerCase = false)
    (hsp : apgDecls.MaskHasMode cfg.Mode Mode.ModeSpecial = false)
    (hup : apgDecls.MaskHasMode cfg.Mode Mode.ModeUpperCase = false) :
    (∀ c, c ∈ GetCharRangeFromConfig apgDecls cfg
        ↔ c ∈ ['2', '3', '4', '5', '6', '7', '8', '9'])
      ∧ '0' ∉ GetCharRangeFromConfig apgDecls cfg
      ∧ '1' ∉ GetCharRangeFromConfig apgDecls cfg
      ∧ ∀ c ∈ GetCharRangeFromConfig apgDecls cfg, c.isDigit = true := by
  have h : GetCharRangeFromConfig apgDecls cfg = ['2', '3', '4', '5', '6', '7', '8', '9'] := by
    unfold GetCharRangeFromConfig
    rw [hnu, hhu, hlo, hsp, hup]
    decide
  rw [h]
  exact ⟨fun c => Iff.rfl, by decide, by decide, by decide⟩

/-- Witness of C12: the mask 17 (numeric bit and human-readable bit). -/
theorem numeric_human_range_witness :
    (∀ c, c ∈ GetCharRangeFromConfig apgDecls numericHumanPolicy
        ↔ c ∈ ['2', '3', '4', '5', '6', '7', '8', '9'])
      ∧ '0' ∉ GetCharRangeFromConfig apgDecls numericHumanPolicy
      ∧ '1' ∉ GetCharRangeFromConfig apgDecls numericHumanPolicy
      ∧ ∀ c ∈ GetCharRangeFromConfig apgDecls numericHumanPolicy, c.isDigit = true :=
  numeric_human_range numericHumanPolicy (by decide) (by decide) (by decide) (by decide)
    (by decide)

/-- C13: the index extraction has no bias.  The map sending a 64-bit window
`w` to its nine candidate indices `(w >> 7j) & 127`, `j = 0..8`, reaches every
9-tuple of values below 128 from exactly the same number of 64-bit words (two:
bit 63 is free), and every value below 128, so every position of a range of
`N <= 128` entries, is the `j`-th candidate of the same number of words
(`2 ^ 57`). -/
theorem candidates_unbiased :
    (∀ t : List Nat, t.length = 9 → (∀ x ∈ t, x < 128) →
        ((Finset.range (2 ^ 64)).filter (fun w => candidates w = t)).card = 2)
      ∧ (∀ j, j < 9 → ∀ i, i < 128 →
        ((Finset.range (2 ^ 64)).filter (fun w => (candidates w)[j]? = some i)).card = 2 ^ 57) :=
  ⟨candidates_fiber, candidates_marginal⟩

/-- Witness of C13: the tuple of the word `0x0102030405060708`, and the value
40 as candidate 3. -/
theorem candidates_unbiased_witness :
    ((Finset.range (2 ^ 64)).filter
        (fun w => candidates w = [8, 14, 24, 40, 64, 96, 0, 1, 1])).card = 2
      ∧ ((Finset.range (2 ^ 64)).filter (fun w => (candidates w)[3]? = some 40)).card = 2 ^ 57 :=
  ⟨candidates_unbiased.1 [8, 14, 24, 40, 64, 96, 0, 1, 1] rfl (by decide),
   candidates_unbiased.2 3 (by decide) 40 (by decide)⟩

/-- Witness of C14: fixed length 4 with minima 3 + 2. -/
theorem unsatisfiable_minima_never_accepted_witness :
    checkMinimumRequirements apgDecls unsatisfiablePolicy ['a', 'b', '1', '2'] = false
      ∧ Generate apgDecls unsatisfiablePolicy exampleEntropy 50 0
          ≠ some ((['a', 'b', '1', '2'], none), 7) :=
  ⟨(unsatisfiable_minima_never_accepted apgDecls unsatisfiablePolicy (by decide)).1
      ['a', 'b', '1', '2'] (by decide),
   (unsatisfiable_minima_never_accepted apgDecls unsatisfiablePolicy (by decide)).2
      exampleEntropy 50 0 ['a', 'b', '1', '2'] 7 rfl (by decide)⟩

/-- Witness of C15, amended: the example policy with length 5. -/
theorem consistent_minima_accepted_string_exists_witness :
    ∃ s : GoString, (s.length : Int) = 5
      ∧ (∀ b ∈ s, b ∈ GetCharRangeFromConfig apgDecls examplePolicy)
      ∧ checkMinimumRequirements apgDecls examplePolicy s = true :=
  consistent_minima_accepted_string_exists apgDecls examplePolicy 5 (by decide) (by decide)
    (fun _ => by decide) (fun _ => by decide) (fun h => absurd h (by decide))
    (fun h => absurd h (by decide))

/-- Witness of C16: 5 bytes over `ABC` from the constant stream are `ABBAB`,
after 2 reads. -/
theorem RandomStringFromCharRange_refines_reference_witness :
    (0 < 2 ∧ (['A', 'B', 'B', 'A', 'B'] : GoString)
        = referenceSample ['A', 'B', 'C'] (5 : Int).toNat (wordsRead constantEntropy 0 (2 - 0)))
      ∧ (∃ pos', pos' ≤ 0 + 2
          ∧ RandomStringFromCharRange constantEntropy 100 0 5 ['A', 'B', 'C']
            = some ((referenceSample ['A', 'B', 'C'] (5 : Int).toNat
                (wordsRead constantEntropy 0 (pos' - 0)), none), pos'))
      ∧ referenceSample ['A', 'B', 'C'] 5 ([2 ^ 63 + 1, 2 ^ 63].map (fun w => w % 2 ^ 63))
          = referenceSample ['A', 'B', 'C'] 5 [2 ^ 63 + 1, 2 ^ 63] :=
  ⟨(RandomStringFromCharRange_refines_reference constantEntropy 100 0 5 ['A', 'B', 'C']
      (by decide) (by decide)).1 ['A', 'B', 'B', 'A', 'B'] 2 (by decide),
   (RandomStringFromCharRange_refines_reference constantEntropy 100 0 5 ['A', 'B', 'C']
      (by decide) (by decide)).2.1 2 (by decide) (fun _ _ _ h => by cases h) (by decide)
      (by decide),
   (RandomStringFromCharRange_refines_reference constantEntropy 100 0 5 ['A', 'B', 'C']
      (by decide) (by decide)).2.2 5 [2 ^ 63 + 1, 2 ^ 63]⟩

/-- Witness of C17: 5 bytes over `ABC` took 2 reads, at least 1; 20 bytes over
a range of 128 bytes. -/
theorem RandomStringFromCharRange_reads_witness :
    ((5 : Int).toNat + 8) / 9 ≤ 2 - 0
      ∧ ∃ r, RandomStringFromCharRange constantEntropy 100 0 20 wideRange = some r
          ∧ (r.1.2 = none → r.2 = 0 + ((20 : Int).toNat + 8) / 9)
          ∧ (noFailure constantEntropy 0 (0 + ((20 : Int).toNat + 8) / 9) → r.1.2 = none) :=
  ⟨(RandomStringFromCharRange_reads constantEntropy 100 0 5 ['A', 'B', 'C']
      (by decide) (by decide)).1 ['A', 'B', 'B', 'A', 'B'] 2 (by decide),
   (RandomStringFromCharRange_reads constantEntropy 100 0 20 wideRange
      (by decide) (by decide)).2 (by simp [wideRange]) (by decide)⟩

/-- Witness of C18: `minLength = -5`, `maxLength = -9` resolves to 1. -/
theorem GetPasswordLength_at_least_one_witness :
    (1 : Int) ≤ 1
      ∧ GetPasswordLength degeneratePolicy exampleEntropy 0
          = GetPasswordLength { degeneratePolicy with MaxLength := degeneratePolicy.MinLength }
              exampleEntropy 0
      ∧ GetPasswordLength degeneratePolicy exampleEntropy 0 = ((1, none), 1) :=
  ⟨(GetPasswordLength_at_least_one degeneratePolicy exampleEntropy 0).1 1 1 (by decide),
   (GetPasswordLength_at_least_one degeneratePolicy exampleEntropy 0).2.1 (by decide)
      (by decide),
   (GetPasswordLength_at_least_one degeneratePolicy exampleEntropy 0).2.2 (by decide) 0 1
      (by decide) (by decide)⟩

/-- Witness of C19: the mask with only the human-readable bit. -/
theorem Generate_empty_range_witness :
    GetCharRangeFromConfig apgDecls emptyMaskPolicy = []
      ∧ Generate apgDecls emptyMaskPolicy exampleEntropy 100 0
        = some (([], some Error.ErrInvalidCharRange),
            (GetPasswordLength emptyMaskPolicy exampleEntropy 0).2) :=
  Generate_empty_range apgDecls emptyMaskPolicy exampleEntropy 100 0 rfl (by decide) (by decide)
    (by decide) (by decide) (by decide) (by decide)

/-- Witness of C20: excluding `abc` from the example policy. -/
theorem ExcludeChars_ignored_witness :
    GetCharRangeFromConfig apgDecls { examplePolicy with ExcludeChars := ['a', 'b', 'c'] }
        = GetCharRangeFromConfig apgDecls examplePolicy
      ∧ Generate apgDecls { examplePolicy with ExcludeChars := ['a', 'b', 'c'] }
          exampleEntropy 100 0 = Generate apgDecls examplePolicy exampleEntropy 100 0
      ∧ 'a' ∈ GetCharRangeFromConfig apgDecls
          { examplePolicy with ExcludeChars := ['a', 'b', 'c'] } :=
  ⟨(ExcludeChars_ignored apgDecls examplePolicy ['a', 'b', 'c'] exampleEntropy 100 0).1,
   (ExcludeChars_ignored apgDecls examplePolicy ['a', 'b', 'c'] exampleEntropy 100 0).2.1,
   (ExcludeChars_ignored apgDecls examplePolicy ['a', 'b', 'c'] exampleEntropy 100 0).2.2
      'a' (by decide) (by decide)⟩

/-! ## The indices read from the range -/

/-- Every byte in the builder was read from `charRange` at an index in bounds
and below 128: this holds for every result of the loop, with or without
error. -/
theorem sampleLoop_index (e : Entropy) (charRange : GoString) :
    ∀ (fuel pos : Nat) (idx : Int) (char rest : Nat) (acc : GoString)
      (r : (GoString × Option Error) × Nat),
      (∀ b ∈ acc, ∃ i, i < charRange.length ∧ i < 128 ∧ charRange[i]? = some b) →
      sampleLoop e charRange fuel pos idx char rest acc = some r →
      ∀ b ∈ r.1.1, ∃ i, i < charRange.length ∧ i < 128 ∧ charRange[i]? = some b := by
  intro fuel
  induction fuel with
  | zero =>
    intro pos idx char rest acc r _ h
    simp [sampleLoop] at h
  | succ n ih =>
    intro pos idx char rest acc r hacc h
    rw [sampleLoop] at h
    split at h
    · simp only [Option.some.injEq] at h
      subst h
      exact hacc
    · split at h
      · simp only [Option.some.injEq] at h
        subst h
        exact hacc
      · rename_i char1 rest1 pos1 hre
        split at h
        · rename_i hlt
          refine ih _ _ _ _ _ r ?_ h
          intro b hb
          rcases List.mem_append.1 hb with h1 | h1
          · exact hacc b h1
          · rw [List.mem_singleton] at h1
            subst h1
            have hle : char1 &&& letterIdxMask ≤ letterIdxMask := Nat.and_le_right
            have h127 : letterIdxMask = 127 := by decide
            exact ⟨char1 &&& letterIdxMask, hlt, by omega, List.getElem?_eq_getElem hlt⟩
        · exact ih _ _ _ _ _ r hacc h

/-- Every byte of every result of the sampler, with or without error, was read
from `charRange` at an index in bounds and below 128. -/
theorem RandomStringFromCharRange_index (e : Entropy) (fuel pos : Nat) (length : Int)
    (charRange : GoString) (r : (GoString × Option Error) × Nat)
    (h : RandomStringFromCharRange e fuel pos length charRange = some r) :
    ∀ b ∈ r.1.1, ∃ i, i < charRange.length ∧ i < 128 ∧ charRange[i]? = some b := by
  unfold RandomStringFromCharRange at h
  split at h
  · simp only [Option.some.injEq] at h
    subst h
    intro b hb
    simp at hb
  · split at h
    · simp only [Option.some.injEq] at h
      subst h
      intro b hb
      simp at hb
    · split at h
      · simp only [Option.some.injEq] at h
        subst h
        intro b hb
        simp at hb
      · exact sampleLoop_index e charRange _ _ _ _ _ _ r (fun b hb => by simp at hb) h

/-- C21: `RandomStringFromCharRange` only ever reads `charRange` at an index
`i` with `i < len(charRange)` and `i < 128`: every byte of every result, with
or without error, was read at such an index.  So every byte of the output is
among the first 128 bytes of `charRange`, and a byte at a position 128 or above
never appears in any output, for any length and any entropy stream, unless it
also occurs among the first 128 positions. -/
theorem RandomStringFromCharRange_first_128 (e : Entropy) (fuel pos : Nat) (length : Int)
    (charRange : GoString) (r : (GoString × Option Error) × Nat)
    (h : RandomStringFromCharRange e fuel pos length charRange = some r) :
    (∀ b ∈ r.1.1, ∃ i, i < charRange.length ∧ i < 128 ∧ charRange[i]? = some b)
      ∧ (∀ b ∈ r.1.1, b ∈ charRange.take 128)
      ∧ (∀ j b, 128 ≤ j → charRange[j]? = some b → b ∉ charRange.take 128 → b ∉ r.1.1) := by
  have hidx := RandomStringFromCharRange_index e fuel pos length charRange r h
  have htake : ∀ b ∈ r.1.1, b ∈ charRange.take 128 := by
    intro b hb
    obtain ⟨i, -, hi, hget⟩ := hidx b hb
    have : (charRange.take 128)[i]? = some b := by
      rw [List.getElem?_take_of_lt hi]
      exact hget
    exact List.getElem?_mem this
  exact ⟨hidx, htake, fun j b _ _ hnot hb => hnot (htake b hb)⟩

set_option maxRecDepth 4000 in
/-- Witness of C21: 5 bytes over the range of 129 bytes, whose byte `Z` at
position 128 is not in the output. -/
theorem RandomStringFromCharRange_first_128_witness :
    (∀ b ∈ (['a', 'a', 'a', 'a', 'a'] : GoString),
        ∃ i, i < longRange.length ∧ i < 128 ∧ longRange[i]? = some b)
      ∧ (∀ b ∈ (['a', 'a', 'a', 'a', 'a'] : GoString), b ∈ longRange.take 128)
      ∧ 'Z' ∉ (['a', 'a', 'a', 'a', 'a'] : GoString) :=
  have w := RandomStringFromCharRange_first_128 constantEntropy 100 0 5 longRange
    ((['a', 'a', 'a', 'a', 'a'], none), 1) (by decide)
  ⟨w.1, w.2.1, w.2.2 128 'Z' (by decide) (by decide) (by decide)⟩

end Apg
